import Mathlib

/-!
# Verification of the `synth` generator engine and sampling driver

This file gives a shallow embedding, in Lean 4, of the generator algebra of
`gen/src/generator/mod.rs` and of the sampling driver of
`synth/src/sampler.rs`, together with theorems settling the specification
claims about them.

Modelling conventions:
* A Rust `Generator` is a state type `S` together with a total step function
  `S → Rng → GeneratorState Y R × S × Rng` (`StepFn`).  The `&mut self` and
  `&mut R` threading of the source becomes explicit state passing.
* The deterministic RNG (`StdRng::seed_from_u64`) is modelled by a concrete
  pure stream `Rng`: each primitive draw (`rng.gen()`, `rng.gen_range`)
  consumes one position of the stream.  The claims under study depend on the
  RNG only through determinism and through *whether* it is consumed, never
  through the concrete distribution values.
* The unbounded loops of the source (`Generator::complete` and the inner loop
  of `Aggregate::next`) are modelled with explicit fuel; theorems about them
  take the hypothesis that the fuel suffices, which is exactly the source's
  informal precondition that the inner generator completes in finite time.
-/

set_option linter.unusedVariables false

namespace Synth

/-- Model of `GeneratorState<Y, R>` of `synth_gen`: one step of a generator either
yields an intermediate value or completes the current round. -/
inductive GeneratorState (Y R : Type) where
  | yielded (y : Y)
  | complete (r : R)
deriving DecidableEq, Repr

/-- Model of `Never` of `synth_gen`: the uninhabited return type of endless
generators. -/
abbrev Never : Type := Empty

/-- The deterministic pseudo-random source.  `StdRng::seed_from_u64(seed)`
is modelled as the stream of values `mix seed 0, mix seed 1, ...`; `pos`
is how many draws have been consumed so far. -/
structure Rng where
  seed : Nat
  pos : Nat
deriving DecidableEq, Repr

/-- One value of the modelled random stream (an arbitrary concrete mixing
function; only determinism matters for the claims). -/
def Rng.mix (seed pos : Nat) : Nat :=
  (seed + 6364136223846793005 * pos + 1442695040888963407) % 18446744073709551616

/-- One primitive draw from the RNG: returns a value and the advanced
stream. -/
def Rng.gen (r : Rng) : Nat × Rng :=
  (Rng.mix r.seed r.pos, ⟨r.seed, r.pos + 1⟩)

/-- A generator with state type `S`, yield type `Y` and return type `R`:
the pure form of `Generator::next(&mut self, rng: &mut R)`. -/
def StepFn (S Y R : Type) : Type :=
  S → Rng → GeneratorState Y R × S × Rng

/-- Model of `Yield<Y>`: yields a clone of `output` on every step, never completes,
never touches the RNG (`_rng` is unused in the source). -/
def yieldStep (output : Y) : StepFn Unit Y Never :=
  fun s rng => (.yielded output, s, rng)

/-- Model of `Complete<Y, C>`: completes immediately on every step with a clone of
`output`; never yields, never touches the RNG. -/
def completePrim (Y : Type) (output : C) : StepFn Unit Y C :=
  fun s rng => (.complete output, s, rng)

/-- Model of `Random<T, D>`: samples the distribution on every step.  The
distribution is modelled as a function of one RNG draw. -/
def randomStep (dist : Nat → T) : StepFn Unit T Never :=
  fun s rng =>
    let (v, rng') := rng.gen
    (.yielded (dist v), s, rng')

/-- Model of `Generator::complete`: loop stepping, discarding yields, until a
`Complete` is observed; `fuel` bounds the number of steps taken by the
loop (the source loop is unbounded). -/
def completeF (f : StepFn S Y R) : Nat → S → Rng → Option (R × S × Rng)
  | 0, _, _ => none
  | fuel + 1, s, rng =>
    match f s rng with
    | (.complete r, s', rng') => some (r, s', rng')
    | (.yielded _, s', rng') => completeF f fuel s' rng'

/-- Like `completeF` but also records the yields discarded by the source
loop: drives the generator to its next `Complete`, collecting the yielded
values in order. -/
def runGen (f : StepFn S Y R) : Nat → S → Rng → Option (List Y × R × S × Rng)
  | 0, _, _ => none
  | fuel + 1, s, rng =>
    match f s rng with
    | (.complete r, s', rng') => some ([], r, s', rng')
    | (.yielded y, s', rng') =>
      (runGen f fuel s' rng').map fun out => (y :: out.1, out.2)

/-! ## Combinators of `gen/src/generator/mod.rs`

Each combinator's state mirrors the fields of the corresponding Rust
`struct`; its step function is a branch-for-branch translation of the
`Generator::next` implementation.  The bounded `self.next(rng)` recursions
of the source are translated either structurally (on fields that strictly
decrease) or by inlining the uniquely-determined recursive call. -/

/-- State of `Once<G>`: the inner state plus the `output: Option<G::Yield>`
stash. -/
def onceStep (f : StepFn S Y Never) : StepFn (S × Option Y) Y Y :=
  fun st rng =>
    match st.2 with
    | some y => (.complete y, (st.1, none), rng)
    | none =>
      match f st.1 rng with
      | (.yielded y, s', rng') => (.yielded y, (s', some y), rng')
      | (.complete n, _, _) => n.elim

/-- Model of `MapComplete<G, F, O>`: apply `closure` to the completed channel. -/
def mapCompleteStep (f : StepFn S Y R) (closure : R → O) : StepFn S Y O :=
  fun s rng =>
    match f s rng with
    | (.yielded y, s', rng') => (.yielded y, s', rng')
    | (.complete r, s', rng') => (.complete (closure r), s', rng')

/-- Model of `MapYielded<G, F, O>`: apply `closure` to the yield channel. -/
def mapYieldedStep (f : StepFn S Y R) (closure : Y → O) : StepFn S O R :=
  fun s rng =>
    match f s rng with
    | (.yielded y, s', rng') => (.yielded (closure y), s', rng')
    | (.complete r, s', rng') => (.complete r, s', rng')

/-- The recursion of `Repeat::next`, structural on the `rem` field (the
source recurses after every inner `Complete`, decrementing `rem`). -/
def repeatAux (f : StepFn S Y R) (len : Nat) :
    S → Nat → List R → Rng → GeneratorState Y (List R) × (S × Nat × List R) × Rng
  | s, 0, ret, rng => (.complete ret, (s, len, []), rng)
  | s, rem + 1, ret, rng =>
    match f s rng with
    | (.yielded y, s', rng') => (.yielded y, (s', rem + 1, ret), rng')
    | (.complete r, s', rng') => repeatAux f len s' rem (ret ++ [r]) rng'

/-- Model of `Repeat<G>` with fields `(inner, rem, ret)` and constant `len`:
exhausts the inner generator `len` times, passing yields through and
collecting the returns; on `rem = 0` completes with the collected vector
and re-arms (`rem := len`, `ret := []`). -/
def repeatStep (f : StepFn S Y R) (len : Nat) : StepFn (S × Nat × List R) Y (List R) :=
  fun st rng => repeatAux f len st.1 st.2.1 st.2.2 rng

/-- Fresh `Repeat` state as built by `GeneratorExt::repeat`. -/
def repeatInit (s : S) (len : Nat) : S × Nat × List (R) := (s, len, ([] : List R))

/-- State of `Replay<G>`: the fields `inner, rem, idx, buf, ret` of the
source struct (`len` is the constant passed to `replay`). -/
structure ReplayState (S Y R : Type) where
  inner : S
  rem : Option Nat
  idx : Nat
  buf : List Y
  ret : Option R
deriving Repr, DecidableEq

/-- Model of `Replay::purge`: clear the buffer and stash and reset `rem` to `len`
(when finite). -/
def Replay.purge (len : Nat) (st : ReplayState S Y R) : ReplayState S Y R :=
  { st with buf := [], ret := none, idx := 0, rem := st.rem.map fun _ => len }

/-- The `ret.is_none()` branch of `Replay::next`: pass the inner generator
through, buffering yields and stashing the return. -/
def replayInnerStep (f : StepFn S Y R) (st : ReplayState S Y R) (rng : Rng) :
    GeneratorState Y R × ReplayState S Y R × Rng :=
  match f st.inner rng with
  | (.yielded y, s', rng') =>
    (.yielded y, { st with inner := s', buf := st.buf ++ [y] }, rng')
  | (.complete r, s', rng') =>
    (.complete r, { st with inner := s', ret := some r }, rng')

/-- Model of `Replay::next`.  Note the faithful translation of the source's
`let mut rem = self.rem;`: `self.rem` is `Copy`, so the decrement
`rem.as_mut().map(|inner| *inner -= 1)` is applied to a local copy and
lost; the stored `rem` field therefore never changes in this branch. -/
def replayStep (f : StepFn S Y R) (len : Nat) : StepFn (ReplayState S Y R) Y R :=
  fun st rng =>
    match st.ret with
    | some r =>
      if (st.rem.map fun rem => decide (0 < rem)).getD true then
        match st.buf[st.idx]? with
        | some next => (.yielded next, { st with idx := st.idx + 1 }, rng)
        | none => (.complete r, { st with idx := 0 }, rng)
      else
        replayInnerStep f (Replay.purge len st) rng
    | none => replayInnerStep f st rng

/-- Fresh `Replay` state as built by `GeneratorExt::replay(len)`. -/
def replayInit (s : S) (len : Nat) : ReplayState S Y R :=
  { inner := s, rem := some len, idx := 0, buf := [], ret := none }

/-- The recursion of `Chain::next`: steps `inners[idx]`, advancing `idx`
past every completed inner generator; terminates because `idx` increases
towards `inners.length`. -/
def chainAux (f : StepFn S Y R) (inners : List S) (idx : Nat) (completed : List R)
    (rng : Rng) : GeneratorState Y (List R) × (List S × Nat × List R) × Rng :=
  -- the source checks `idx == inners.len()` and then `get_mut(idx).unwrap()`s;
  -- under the maintained invariant `idx ≤ inners.len()` the check is
  -- equivalently `inners.len() ≤ idx`, which makes the lookup total
  if h : inners.length ≤ idx then
    (.complete completed, (inners, 0, []), rng)
  else
    match f (inners.get ⟨idx, by omega⟩) rng with
    | (.yielded y, s', rng') => (.yielded y, (inners.set idx s', idx, completed), rng')
    | (.complete r, s', rng') =>
      chainAux f (inners.set idx s') (idx + 1) (completed ++ [r]) rng'
  termination_by inners.length - idx
  decreasing_by
    simp only [List.length_set]
    omega

/-- Model of `Chain<G>` with fields `(inners, idx, completed)`: exhausts each inner
generator in order, then completes with the vector of their returns and
re-arms (`idx := 0`, `completed := []`). -/
def chainStep (f : StepFn S Y R) : StepFn (List S × Nat × List R) Y (List R) :=
  fun st rng => chainAux f st.1 st.2.1 st.2.2 rng

/-- Model of `Vec::insert(idx, x)` as used by `OneOf::next` to reinsert the picked
generator at its original index. -/
def listInsertIdx : List α → Nat → α → List α
  | xs, 0, a => a :: xs
  | [], _ + 1, a => [a]
  | x :: xs, n + 1, a => x :: listInsertIdx xs n a

/-- The cursor branch of `OneOf::next`: step the picked generator; on its
completion, reinsert it at its index and clear the cursor. -/
def oneOfCursorStep (f : StepFn S Y R) (inners : List S) (idx : Nat) (picked : S)
    (rng : Rng) : GeneratorState Y (Option R) × (List S × Option (Nat × S)) × Rng :=
  match f picked rng with
  | (.yielded y, p', rng') => (.yielded y, (inners, some (idx, p')), rng')
  | (.complete r, p', rng') => (.complete (some r), (listInsertIdx inners idx p', none), rng')

/-- Model of `OneOf<G>` with fields `(inners, cursor)`: with no cursor, completes
with `None` on an empty collection, otherwise draws an index uniformly,
removes that inner generator into the cursor and steps it (the source's
`self.next(rng)` recursion, inlined). -/
def oneOfStep (f : StepFn S Y R) : StepFn (List S × Option (Nat × S)) Y (Option R) :=
  fun st rng =>
    match st.2 with
    | some (idx, picked) => oneOfCursorStep f st.1 idx picked rng
    | none =>
      if h : st.1.isEmpty then (.complete none, (st.1, none), rng)
      else
        let (v, rng') := rng.gen
        let idx := v % st.1.length
        have hidx : idx < st.1.length :=
          Nat.mod_lt _ (List.length_pos.mpr (by simpa [List.isEmpty_iff] using h))
        oneOfCursorStep f (st.1.eraseIdx idx) idx (st.1.get ⟨idx, hidx⟩) rng'

/-- Model of `Maybe<G>` with fields `(inner, include)`: with `include` set, pass the
inner generator through, clearing `include` on completion; otherwise flip
a coin, completing immediately with `None` on tails and stepping the inner
generator on heads (the source's `self.next(rng)` recursion, inlined). -/
def maybeStep (f : StepFn S Y R) : StepFn (S × Bool) Y (Option R) :=
  fun st rng =>
    if st.2 then
      match f st.1 rng with
      | (.yielded y, s', rng') => (.yielded y, (s', true), rng')
      | (.complete r, s', rng') => (.complete (some r), (s', false), rng')
    else
      let (v, rng') := rng.gen
      let b := v % 2 == 1
      if b then
        match f st.1 rng' with
        | (.yielded y, s', rng'') => (.yielded y, (s', true), rng'')
        | (.complete r, s', rng'') => (.complete (some r), (s', false), rng'')
      else
        (.complete none, (st.1, false), rng')

/-- The `left_output.is_some()` branch of `Concatenate::next`: pass the
right generator through; on its completion, take the stashed left return
and complete with the pair. -/
def concatenateRightStep (fr : StepFn S2 Y R2) (sl : S1) (l : R1) (sr : S2) (rng : Rng) :
    GeneratorState Y (R1 × R2) × (S1 × Option R1 × S2) × Rng :=
  match fr sr rng with
  | (.yielded y, sr', rng') => (.yielded y, (sl, some l, sr'), rng')
  | (.complete rr, sr', rng') => (.complete (l, rr), (sl, none, sr'), rng')

/-- Model of `Concatenate<Left, Right>` with fields `(left, left_output, right)`:
exhaust the left generator (stashing its return, the source's
`self.next(rng)` recursion inlined), then the right one, completing with
the pair of returns. -/
def concatenateStep (fl : StepFn S1 Y R1) (fr : StepFn S2 Y R2) :
    StepFn (S1 × Option R1 × S2) Y (R1 × R2) :=
  fun st rng =>
    match st.2.1 with
    | none =>
      match fl st.1 rng with
      | (.yielded y, sl', rng') => (.yielded y, (sl', none, st.2.2), rng')
      | (.complete r, sl', rng') => concatenateRightStep fr sl' r st.2.2 rng'
    | some l => concatenateRightStep fr st.1 l st.2.2 rng

/-- Model of `BraceState` of the source.  The source stashes the middle return in a
separate `complete: Option<G::Return>` field and `unwrap`s it in the `End`
arm; the `End` arm is only ever entered with the stash set, which is made
structural here by carrying the stashed value in the `bEnd` constructor. -/
inductive BraceControl (R : Type) where
  | bBegin
  | bMiddle
  | bEnd (r : R)
deriving Repr, DecidableEq

/-- The `End` arm of `Brace::next`: exhaust the suffix generator
(discarding its return), then complete with the stashed middle return and
re-arm to `Begin`. -/
def braceEndStep (fe : StepFn S3 Y R3) (sb : S1) (sg : S2) (r : R) (se : S3) (rng : Rng) :
    GeneratorState Y R × (S1 × S2 × S3 × BraceControl R) × Rng :=
  match fe se rng with
  | (.yielded y, se', rng') => (.yielded y, (sb, sg, se', .bEnd r), rng')
  | (.complete _, se', rng') => (.complete r, (sb, sg, se', .bBegin), rng')

/-- The `Middle` arm of `Brace::next`: pass the middle generator through,
stashing its return and moving to `End` (the source's recursion inlined). -/
def braceMiddleStep (fg : StepFn S2 Y R) (fe : StepFn S3 Y R3) (sb : S1) (sg : S2)
    (se : S3) (rng : Rng) :
    GeneratorState Y R × (S1 × S2 × S3 × BraceControl R) × Rng :=
  match fg sg rng with
  | (.yielded y, sg', rng') => (.yielded y, (sb, sg', se, .bMiddle), rng')
  | (.complete r, sg', rng') => braceEndStep fe sb sg' r se rng'

/-- The `Begin` arm of `Brace::next`: exhaust the prefix generator
(discarding its return), then fall through to `Middle` (the source's
recursion inlined). -/
def braceBeginStep (fb : StepFn S1 Y R1) (fg : StepFn S2 Y R) (fe : StepFn S3 Y R3)
    (sb : S1) (sg : S2) (se : S3) (rng : Rng) :
    GeneratorState Y R × (S1 × S2 × S3 × BraceControl R) × Rng :=
  match fb sb rng with
  | (.yielded y, sb', rng') => (.yielded y, (sb', sg, se, .bBegin), rng')
  | (.complete _, sb', rng') => braceMiddleStep fg fe sb' sg se rng'

/-- Model of `Brace<BG, G, EG>` with fields `(begin, inner, end, state, complete)`:
dispatch on the control state. -/
def braceStep (fb : StepFn S1 Y R1) (fg : StepFn S2 Y R) (fe : StepFn S3 Y R3) :
    StepFn (S1 × S2 × S3 × BraceControl R) Y R :=
  fun st rng =>
    match st.2.2.2 with
    | .bBegin => braceBeginStep fb fg fe st.1 st.2.1 st.2.2.1 rng
    | .bMiddle => braceMiddleStep fg fe st.1 st.2.1 st.2.2.1 rng
    | .bEnd r => braceEndStep fe st.1 st.2.1 r st.2.2.1 rng

/-- Model of `Aggregate<G>` with fields `(inner, output)`: with the stash set,
complete with it (re-arming to `output := None`); otherwise drive the
inner generator to its next completion, collecting every yield into one
vector, yield that vector and stash the inner return.  The source's inner
`loop` is unbounded; it is modelled by `runGen` with the explicit bound
`fuel`, and the out-of-fuel case (unreachable in every theorem below,
whose hypotheses make the inner generator complete within `fuel`) leaves
the state unchanged. -/
def aggregateStep (f : StepFn S Y R) (fuel : Nat) : StepFn (Option R × S) (List Y) R :=
  fun st rng =>
    match st.1 with
    | some r => (.complete r, (none, st.2), rng)
    | none =>
      match runGen f fuel st.2 rng with
      | some (ys, r, s', rng') => (.yielded ys, (some r, s'), rng')
      | none => (.yielded [], (none, st.2), rng)

/-- Big-step exhaustion: `Exhausts f s rng ys r s' rng'` says that from
state `s` and RNG `rng` the generator completes after finitely many steps,
yielding exactly `ys` in order and returning `r`, leaving state `s'` and
RNG `rng'`.  This is the fuel-free form of one round of
`Generator::complete`. -/
inductive Exhausts (f : StepFn S Y R) : S → Rng → List Y → R → S → Rng → Prop
  | done {s rng r s' rng'} :
      f s rng = (.complete r, s', rng') → Exhausts f s rng [] r s' rng'
  | step {s rng y s1 rng1 ys r s' rng'} :
      f s rng = (.yielded y, s1, rng1) → Exhausts f s1 rng1 ys r s' rng' →
      Exhausts f s rng (y :: ys) r s' rng'

/-- Model of `n` successive exhaustions: the per-round yield lists and return values
of `n` back-to-back rounds of the generator. -/
inductive ExhaustsN (f : StepFn S Y R) : Nat → S → Rng → List (List Y) → List R → S → Rng → Prop
  | zero {s rng} : ExhaustsN f 0 s rng [] [] s rng
  | succ {n s rng ys r s1 rng1 yss rs s' rng'} :
      Exhausts f s rng ys r s1 rng1 →
      ExhaustsN f n s1 rng1 yss rs s' rng' →
      ExhaustsN f (n + 1) s rng (ys :: yss) (r :: rs) s' rng'

theorem runGen_sound {f : StepFn S Y R} (fuel : Nat) :
    ∀ {s rng ys r s' rng'}, runGen f fuel s rng = some (ys, r, s', rng') →
    Exhausts f s rng ys r s' rng' := by
  induction fuel with
  | zero => intro s rng ys r s' rng' h; simp [runGen] at h
  | succ n ih =>
    intro s rng ys r s' rng' h
    rw [runGen] at h
    rcases hf : f s rng with ⟨st, s1, rng1⟩
    rw [hf] at h
    cases st with
    | complete r0 =>
      simp only [Option.some.injEq, Prod.mk.injEq] at h
      obtain ⟨h1, h2, h3, h4⟩ := h
      subst h1; subst h2; subst h3; subst h4
      exact .done hf
    | yielded y =>
      simp only [Option.map_eq_some', Prod.mk.injEq] at h
      obtain ⟨⟨ys0, r0, s0, rng0⟩, hrun, h2⟩ := h
      obtain ⟨rfl, rfl, rfl, rfl⟩ := h2
      exact .step hf (ih hrun)

theorem runGen_of_exhausts {f : StepFn S Y R} {s rng ys r s' rng'}
    (h : Exhausts f s rng ys r s' rng') :
    ∀ {fuel}, ys.length < fuel → runGen f fuel s rng = some (ys, r, s', rng') := by
  induction h with
  | done hstep =>
    intro fuel hfuel
    match fuel, hfuel with
    | fuel + 1, _ => simp [runGen, hstep]
  | step hstep _ ih =>
    intro fuel hfuel
    match fuel, hfuel with
    | fuel + 1, hfuel =>
      simp [runGen, hstep, ih (by simpa using hfuel)]

theorem completeF_eq_runGen (f : StepFn S Y R) :
    ∀ fuel s rng, completeF f fuel s rng = (runGen f fuel s rng).map fun out => out.2 := by
  intro fuel
  induction fuel with
  | zero => intro s rng; rfl
  | succ n ih =>
    intro s rng
    rw [completeF, runGen]
    rcases hf : f s rng with ⟨st, s', rng'⟩
    cases st with
    | complete r => rfl
    | yielded y =>
      simp only [ih]
      rcases runGen f n s' rng' with _ | out <;> rfl

theorem exhaustsN_length {f : StepFn S Y R} {n s rng yss rs s' rng'}
    (h : ExhaustsN f n s rng yss rs s' rng') : rs.length = n ∧ yss.length = n := by
  induction h with
  | zero => exact ⟨rfl, rfl⟩
  | succ _ _ ih => exact ⟨by simp [ih.1], by simp [ih.2]⟩

/-- If two (state, RNG) configurations produce the very same step value,
exhaustion from one transfers to the other. -/
theorem exhausts_head_eq {g : StepFn T Y R} {a : T} {rngA : Rng} {b : T} {rngB : Rng}
    (h : g a rngA = g b rngB) {ys r c rngC} :
    Exhausts g b rngB ys r c rngC → Exhausts g a rngA ys r c rngC := by
  intro d
  cases d with
  | done h' => exact .done (h.trans h')
  | step h' tl => exact .step (h.trans h') tl

/-! ### Behaviour of `Repeat` -/

theorem repeat_shift {f : StepFn S Y R} {len : Nat} {s rng ys r s1 rng1}
    (h : Exhausts f s rng ys r s1 rng1) :
    ∀ {rem : Nat} {ret : List R} {ys2 r2 st2 rng2},
    Exhausts (repeatStep f len) (s1, rem, ret ++ [r]) rng1 ys2 r2 st2 rng2 →
    Exhausts (repeatStep f len) (s, rem + 1, ret) rng (ys ++ ys2) r2 st2 rng2 := by
  induction h with
  | @done s0 rng0 r0 s0' rng0' hstep =>
    intro rem ret ys2 r2 st2 rng2 d
    have heq : repeatStep f len (s0, rem + 1, ret) rng0 =
        repeatStep f len (s0', rem, ret ++ [r0]) rng0' := by
      simp only [repeatStep, repeatAux, hstep]
    exact exhausts_head_eq heq d
  | @step s0 rng0 y0 s1' rng1' ys0 r0 s0' rng0' hstep _ ih =>
    intro rem ret ys2 r2 st2 rng2 d
    have heq : repeatStep f len (s0, rem + 1, ret) rng0 =
        (.yielded y0, (s1', rem + 1, ret), rng1') := by
      simp only [repeatStep, repeatAux, hstep]
    exact .step heq (ih d)

theorem repeat_of_exhaustsN {f : StepFn S Y R} (len : Nat) :
    ∀ {n s rng yss rs s' rng'}, ExhaustsN f n s rng yss rs s' rng' →
    ∀ ret, Exhausts (repeatStep f len) (s, n, ret) rng yss.flatten (ret ++ rs) (s', len, []) rng' := by
  intro n s rng yss rs s' rng' h
  induction h with
  | zero =>
    intro ret
    simpa using Exhausts.done (f := repeatStep f len) (by simp [repeatStep, repeatAux])
  | succ h1 _ ih =>
    intro ret
    have := repeat_shift h1 (ih (ret ++ [_]))
    simpa [List.append_assoc] using this

/-! ### Behaviour of `Replay` -/

theorem replay_first {f : StepFn S Y R} (len : Nat) {s rng ys r s' rng'}
    (h : Exhausts f s rng ys r s' rng') :
    ∀ (rem0 : Option Nat) (idx0 : Nat) (buf0 : List Y),
    Exhausts (replayStep f len) ⟨s, rem0, idx0, buf0, none⟩ rng ys r
      ⟨s', rem0, idx0, buf0 ++ ys, some r⟩ rng' := by
  induction h with
  | done hstep =>
    intro rem0 idx0 buf0
    exact .done (by simp [replayStep, replayInnerStep, hstep])
  | @step s0 rng0 y0 s1 rng1 ys0 r0 s0' rng0' hstep _ ih =>
    intro rem0 idx0 buf0
    have h1 : replayStep f len ⟨s0, rem0, idx0, buf0, none⟩ rng0 =
        (.yielded y0, ⟨s1, rem0, idx0, buf0 ++ [y0], none⟩, rng1) := by
      simp [replayStep, replayInnerStep, hstep]
    refine .step h1 ?_
    simpa [List.append_assoc] using ih rem0 idx0 (buf0 ++ [y0])

theorem replay_buffered {f : StepFn S Y R} (len : Nat) {sI : S} {rem0 : Option Nat} {r : R}
    (hrem : (rem0.map fun rem => decide (0 < rem)).getD true = true) :
    ∀ (pre suf : List Y) (rng : Rng),
    Exhausts (replayStep f len) ⟨sI, rem0, pre.length, pre ++ suf, some r⟩ rng suf r
      ⟨sI, rem0, 0, pre ++ suf, some r⟩ rng := by
  intro pre suf
  induction suf generalizing pre with
  | nil =>
    intro rng
    refine .done ?_
    simp only [replayStep, hrem, if_pos]
    have : (pre ++ ([] : List Y))[pre.length]? = none := by simp
    simp [this]
  | cons y suf ih =>
    intro rng
    have h1 : replayStep f len ⟨sI, rem0, pre.length, pre ++ y :: suf, some r⟩ rng =
        (.yielded y, ⟨sI, rem0, pre.length + 1, pre ++ y :: suf, some r⟩, rng) := by
      simp only [replayStep, hrem, if_pos]
      have hb : (pre ++ y :: suf)[pre.length]? = some y := by
        rw [List.getElem?_append_right (Nat.le_refl _)]
        simp
      simp [hb]
    refine .step h1 ?_
    have := ih (pre ++ [y]) rng
    simpa [List.append_assoc] using this

theorem replay_replays {f : StepFn S Y R} {len : Nat} {sI : S} {rem0 : Option Nat}
    {r : R} {ys : List Y} {rng : Rng}
    (hrem : (rem0.map fun rem => decide (0 < rem)).getD true = true) :
    ∀ k, ExhaustsN (replayStep f len) k ⟨sI, rem0, 0, ys, some r⟩ rng
      (List.replicate k ys) (List.replicate k r) ⟨sI, rem0, 0, ys, some r⟩ rng := by
  intro k
  induction k with
  | zero => exact .zero
  | succ k ih =>
    exact .succ (by simpa using replay_buffered (f := f) len hrem [] ys rng) ih

/-! ### Behaviour of `Aggregate` -/

theorem aggregate_one {f : StepFn S Y R} {fuel : Nat} {s rng ys r s' rng'}
    (h : Exhausts f s rng ys r s' rng') (hfuel : ys.length < fuel) :
    Exhausts (aggregateStep f fuel) (none, s) rng [ys] r (none, s') rng' := by
  have h1 : aggregateStep f fuel (none, s) rng = (.yielded ys, (some r, s'), rng') := by
    simp [aggregateStep, runGen_of_exhausts h hfuel]
  have h2 : aggregateStep f fuel (some r, s') rng' = (.complete r, (none, s'), rng') := rfl
  exact .step h1 (.done h2)

theorem aggregate_of_exhaustsN {f : StepFn S Y R} (fuel : Nat) :
    ∀ {k s rng yss rs s' rng'}, ExhaustsN f k s rng yss rs s' rng' →
    (∀ ys ∈ yss, ys.length < fuel) →
    ExhaustsN (aggregateStep f fuel) k (none, s) rng (yss.map fun ys => [ys]) rs
      (none, s') rng' := by
  intro k s rng yss rs s' rng' h
  induction h with
  | zero => intro _; exact .zero
  | succ h1 _ ih =>
    intro hfuel
    exact .succ (aggregate_one h1 (hfuel _ (by simp))) (ih fun ys hys => hfuel ys (by simp [hys]))

/-! ### Re-arming after completion -/

theorem once_rearm {f : StepFn S Y Never} {st rng r st' rng'}
    (h : onceStep f st rng = (.complete r, st', rng')) : st'.2 = none := by
  rcases st with ⟨s, _ | y⟩
  · rw [onceStep] at h
    rcases hf : f s rng with ⟨gs, s1, rng1⟩
    rw [hf] at h
    cases gs with
    | yielded y => simp at h
    | complete n => exact n.elim
  · rw [onceStep] at h
    simp only [Prod.mk.injEq, GeneratorState.complete.injEq] at h
    rw [← h.2.1]

theorem repeatAux_rearm {f : StepFn S Y R} {len : Nat} :
    ∀ {rem : Nat} {s ret rng r st' rng'},
    repeatAux f len s rem ret rng = (.complete r, st', rng') →
    st'.2.1 = len ∧ st'.2.2 = [] := by
  intro rem
  induction rem with
  | zero =>
    intro s ret rng r st' rng' h
    rw [repeatAux] at h
    simp only [Prod.mk.injEq] at h
    rw [← h.2.1]
    exact ⟨rfl, rfl⟩
  | succ m ih =>
    intro s ret rng r st' rng' h
    rw [repeatAux] at h
    rcases hf : f s rng with ⟨gs, s1, rng1⟩
    rw [hf] at h
    cases gs with
    | yielded y => simp at h
    | complete r0 => exact ih h

theorem chainAux_rearm_bounded {f : StepFn S Y R} :
    ∀ (n : Nat) {inners : List S} {idx : Nat}, inners.length - idx ≤ n →
    ∀ {completed rng r st' rng'},
    chainAux f inners idx completed rng = (.complete r, st', rng') →
    st'.2.1 = 0 ∧ st'.2.2 = [] := by
  intro n
  induction n with
  | zero =>
    intro inners idx hn completed rng r st' rng' hstep
    rw [chainAux, dif_pos (by omega)] at hstep
    simp only [Prod.mk.injEq] at hstep
    rw [← hstep.2.1]
    exact ⟨rfl, rfl⟩
  | succ n ih =>
    intro inners idx hn completed rng r st' rng' hstep
    rw [chainAux] at hstep
    by_cases hle : inners.length ≤ idx
    · rw [dif_pos hle] at hstep
      simp only [Prod.mk.injEq] at hstep
      rw [← hstep.2.1]
      exact ⟨rfl, rfl⟩
    · rw [dif_neg hle] at hstep
      rcases hf : f (inners.get ⟨idx, by omega⟩) rng with ⟨gs, s1, rng1⟩
      rw [hf] at hstep
      cases gs with
      | yielded y => simp at hstep
      | complete r0 => exact ih (by simp only [List.length_set]; omega) hstep

theorem chain_rearm {f : StepFn S Y R} {st rng r st' rng'}
    (h : chainStep f st rng = (.complete r, st', rng')) :
    st'.2.1 = 0 ∧ st'.2.2 = [] :=
  chainAux_rearm_bounded (st.1.length - st.2.1) (Nat.le_refl _) h

theorem oneOfCursor_rearm {f : StepFn S Y R} {inners idx picked rng r st' rng'}
    (h : oneOfCursorStep f inners idx picked rng = (.complete r, st', rng')) :
    st'.2 = none := by
  rw [oneOfCursorStep] at h
  rcases hf : f picked rng with ⟨gs, s1, rng1⟩
  rw [hf] at h
  cases gs with
  | yielded y => simp at h
  | complete r0 =>
    simp only [Prod.mk.injEq] at h
    rw [← h.2.1]

theorem oneOf_rearm {f : StepFn S Y R} {st rng r st' rng'}
    (h : oneOfStep f st rng = (.complete r, st', rng')) : st'.2 = none := by
  rcases st with ⟨inners, _ | ⟨idx, picked⟩⟩
  · rw [oneOfStep] at h
    by_cases he : inners.isEmpty
    · rw [dif_pos he] at h
      simp only [Prod.mk.injEq] at h
      rw [← h.2.1]
    · rw [dif_neg he] at h
      exact oneOfCursor_rearm h
  · exact oneOfCursor_rearm h

theorem maybe_rearm {f : StepFn S Y R} {st rng r st' rng'}
    (h : maybeStep f st rng = (.complete r, st', rng')) : st'.2 = false := by
  rcases st with ⟨s, b⟩
  cases b with
  | true =>
    rw [maybeStep] at h
    simp only [if_pos] at h
    rcases hf : f s rng with ⟨gs, s1, rng1⟩
    rw [hf] at h
    cases gs with
    | yielded y => simp at h
    | complete r0 =>
      simp only [Prod.mk.injEq] at h
      rw [← h.2.1]
  | false =>
    rw [maybeStep] at h
    simp only [Bool.false_eq_true, if_neg, not_false_iff] at h
    by_cases hb : Rng.mix rng.seed rng.pos % 2 == 1
    · simp only [Rng.gen, hb, if_pos] at h
      rcases hf : f s ⟨rng.seed, rng.pos + 1⟩ with ⟨gs, s1, rng1⟩
      rw [hf] at h
      cases gs with
      | yielded y => simp at h
      | complete r0 =>
        simp only [Prod.mk.injEq] at h
        rw [← h.2.1]
    · simp only [Rng.gen, hb, Bool.false_eq_true, if_neg, not_false_iff] at h
      simp only [Prod.mk.injEq] at h
      rw [← h.2.1]

theorem concatenateRight_rearm {fr : StepFn S2 Y R2} {sl : S1} {l : R1} {sr rng r st' rng'}
    (h : concatenateRightStep fr sl l sr rng = (.complete r, st', rng')) :
    st'.2.1 = none := by
  rw [concatenateRightStep] at h
  rcases hf : fr sr rng with ⟨gs, s1, rng1⟩
  rw [hf] at h
  cases gs with
  | yielded y => simp at h
  | complete r0 =>
    simp only [Prod.mk.injEq] at h
    rw [← h.2.1]

theorem concatenate_rearm {fl : StepFn S1 Y R1} {fr : StepFn S2 Y R2} {st rng r st' rng'}
    (h : concatenateStep fl fr st rng = (.complete r, st', rng')) : st'.2.1 = none := by
  rcases st with ⟨sl, _ | l, sr⟩
  · rw [concatenateStep] at h
    rcases hf : fl sl rng with ⟨gs, s1, rng1⟩
    rw [hf] at h
    cases gs with
    | yielded y => simp at h
    | complete r0 => exact concatenateRight_rearm h
  · exact concatenateRight_rearm h

theorem braceEnd_rearm {fe : StepFn S3 Y R3} {sb : S1} {sg : S2} {r0 : R} {se rng r st' rng'}
    (h : braceEndStep fe sb sg r0 se rng = (.complete r, st', rng')) :
    st'.2.2.2 = BraceControl.bBegin := by
  rw [braceEndStep] at h
  rcases hf : fe se rng with ⟨gs, s1, rng1⟩
  rw [hf] at h
  cases gs with
  | yielded y => simp at h
  | complete r1 =>
    simp only [Prod.mk.injEq] at h
    rw [← h.2.1]

theorem braceMiddle_rearm {fg : StepFn S2 Y R} {fe : StepFn S3 Y R3}
    {sb : S1} {sg se rng r st' rng'}
    (h : braceMiddleStep fg fe sb sg se rng = (.complete r, st', rng')) :
    st'.2.2.2 = BraceControl.bBegin := by
  rw [braceMiddleStep] at h
  rcases hf : fg sg rng with ⟨gs, s1, rng1⟩
  rw [hf] at h
  cases gs with
  | yielded y => simp at h
  | complete r1 => exact braceEnd_rearm h

theorem brace_rearm {fb : StepFn S1 Y R1} {fg : StepFn S2 Y R} {fe : StepFn S3 Y R3}
    {st rng r st' rng'}
    (h : braceStep fb fg fe st rng = (.complete r, st', rng')) :
    st'.2.2.2 = BraceControl.bBegin := by
  rcases st with ⟨sb, sg, se, ctl⟩
  cases ctl with
  | bBegin =>
    rw [braceStep] at h
    rw [braceBeginStep] at h
    rcases hf : fb sb rng with ⟨gs, s1, rng1⟩
    rw [hf] at h
    cases gs with
    | yielded y => simp at h
    | complete r1 => exact braceMiddle_rearm h
  | bMiddle => exact braceMiddle_rearm h
  | bEnd r0 => exact braceEnd_rearm h

theorem aggregate_rearm {f : StepFn S Y R} {fuel st rng r st' rng'}
    (h : aggregateStep f fuel st rng = (.complete r, st', rng')) : st'.1 = none := by
  rcases st with ⟨_ | r0, s⟩
  · rw [aggregateStep] at h
    rcases hr : runGen f fuel s rng with _ | ⟨ys, r1, s1, rng1⟩
    · rw [hr] at h; simp at h
    · rw [hr] at h; simp at h
  · rw [aggregateStep] at h
    simp only [Prod.mk.injEq] at h
    rw [← h.2.1]

theorem flatten_map_singleton (yss : List α) : (yss.map fun ys => [ys]).flatten = yss := by
  induction yss with
  | nil => rfl
  | cons a l ih => simp [ih]

/-! ## Claims about the generator algebra -/

/-- C9: for every generator `g` and every `n`, `g.repeat(n).complete(rng)`
returns the vector of the `n` successive return values of `g` (so it has
length exactly `n`), its yields are the concatenation of the yields of `n`
successive exhaustions of `g`, and for `n = 0` it completes on the first
step with the empty vector without stepping `g` at all (state and RNG are
untouched). -/
theorem repeat_cardinality {S Y R : Type} {f : StepFn S Y R} {n : Nat} {s : S} {rng : Rng}
    {yss : List (List Y)} {rs : List R} {s' : S} {rng' : Rng}
    (h : ExhaustsN f n s rng yss rs s' rng') :
    Exhausts (repeatStep f n) (s, n, ([] : List R)) rng yss.flatten rs (s', n, []) rng'
    ∧ rs.length = n
    ∧ (∀ (t : S) (rng0 : Rng),
        repeatStep f 0 (t, 0, ([] : List R)) rng0 = (.complete [], (t, 0, []), rng0)) :=
  ⟨by simpa using repeat_of_exhaustsN n h [],
   (exhaustsN_length h).1,
   fun t rng0 => rfl⟩

theorem repeat_cardinality_witness :
    ExhaustsN (completePrim Nat (7 : Nat)) 2 () ⟨0, 0⟩ [[], []] [7, 7] () ⟨0, 0⟩
    ∧ Exhausts (repeatStep (completePrim Nat (7 : Nat)) 2) ((), 2, ([] : List Nat)) ⟨0, 0⟩
        [] [7, 7] ((), 2, []) ⟨0, 0⟩
    ∧ ([7, 7] : List Nat).length = 2 := by
  have h : ExhaustsN (completePrim Nat (7 : Nat)) 2 () ⟨0, 0⟩ [[], []] [7, 7] () ⟨0, 0⟩ :=
    .succ (.done rfl) (.succ (.done rfl) .zero)
  have h2 := repeat_cardinality h
  exact ⟨h, by simpa using h2.1, h2.2.1⟩

/-- C4: for every finitely-completing generator `g` and every `n`,
`g.replay(n)`'s first exhaustion yields the same values and the same
return as `g` alone (threading the RNG identically), after which the state
is the filled buffer; and each of the next `n` exhaustions yields exactly
the buffered sequence and return, with the RNG completely untouched (the
replays start and end at the RNG position `rng'` reached by the first
exhaustion, and the state returns to itself). -/
theorem replay_faithfulness {S Y R : Type} {f : StepFn S Y R} {n : Nat} {s : S} {rng : Rng}
    {ys : List Y} {r : R} {s' : S} {rng' : Rng}
    (h : Exhausts f s rng ys r s' rng') :
    Exhausts (replayStep f n) (replayInit s n) rng ys r ⟨s', some n, 0, ys, some r⟩ rng'
    ∧ ExhaustsN (replayStep f n) n ⟨s', some n, 0, ys, some r⟩ rng'
        (List.replicate n ys) (List.replicate n r) ⟨s', some n, 0, ys, some r⟩ rng' := by
  constructor
  · simpa [replayInit] using replay_first n h (some n) 0 []
  · cases n with
    | zero => exact .zero
    | succ m => exact replay_replays (by simp) (m + 1)

theorem replay_faithfulness_witness :
    Exhausts (onceStep (randomStep id)) (((), none)) ⟨3, 0⟩ [Rng.mix 3 0] (Rng.mix 3 0)
      (((), none)) ⟨3, 1⟩
    ∧ Exhausts (replayStep (onceStep (randomStep id)) 2) (replayInit (((), none)) 2) ⟨3, 0⟩
        [Rng.mix 3 0] (Rng.mix 3 0)
        ⟨((), none), some 2, 0, [Rng.mix 3 0], some (Rng.mix 3 0)⟩ ⟨3, 1⟩
    ∧ ExhaustsN (replayStep (onceStep (randomStep id)) 2) 2
        ⟨((), none), some 2, 0, [Rng.mix 3 0], some (Rng.mix 3 0)⟩ ⟨3, 1⟩
        (List.replicate 2 [Rng.mix 3 0]) (List.replicate 2 (Rng.mix 3 0))
        ⟨((), none), some 2, 0, [Rng.mix 3 0], some (Rng.mix 3 0)⟩ ⟨3, 1⟩ := by
  have h : Exhausts (onceStep (randomStep id)) (((), none)) ⟨3, 0⟩ [Rng.mix 3 0] (Rng.mix 3 0)
      (((), none)) ⟨3, 1⟩ := runGen_sound 2 rfl
  have h2 := replay_faithfulness (n := 2) h
  exact ⟨h, h2.1, h2.2⟩

/-- C3 (code bug): the claim says that in `g.replay(n)`, after the first
exhaustion and then `n` buffered replays, the buffer is purged and the
next step exhausts the inner generator afresh (drawing from the RNG
again).  The code instead copies `self.rem` into a local
(`let mut rem = self.rem;`, `Option<usize>` is `Copy`) and decrements only
the copy, so the stored `rem` never decreases, the buffer is never purged
for `n ≥ 1`, and replays continue forever.  This theorem evaluates the
embedded code at the failing input `n = 1` with the inner generator
`random().once()`: after the first exhaustion and one full replay, the
next step yields the buffered value again with the RNG untouched and the
buffer intact, instead of purging and re-drawing. -/
theorem replay_never_purges :
    runGen (replayStep (onceStep (randomStep id)) 1) 3 (replayInit (((), none)) 1) ⟨7, 0⟩
      = some ([Rng.mix 7 0], Rng.mix 7 0,
          ⟨((), none), some 1, 0, [Rng.mix 7 0], some (Rng.mix 7 0)⟩, ⟨7, 1⟩)
    ∧ runGen (replayStep (onceStep (randomStep id)) 1) 3
        ⟨((), none), some 1, 0, [Rng.mix 7 0], some (Rng.mix 7 0)⟩ ⟨7, 1⟩
      = some ([Rng.mix 7 0], Rng.mix 7 0,
          ⟨((), none), some 1, 0, [Rng.mix 7 0], some (Rng.mix 7 0)⟩, ⟨7, 1⟩)
    ∧ replayStep (onceStep (randomStep id)) 1
        ⟨((), none), some 1, 0, [Rng.mix 7 0], some (Rng.mix 7 0)⟩ ⟨7, 1⟩
      = (.yielded (Rng.mix 7 0),
          ⟨((), none), some 1, 1, [Rng.mix 7 0], some (Rng.mix 7 0)⟩, ⟨7, 1⟩) :=
  ⟨rfl, rfl, rfl⟩

/-- C2 counterexample: the claim states that `g.aggregate().complete(rng)`
equals the vector of values `g` would have yielded.  `Aggregate::next`
yields the collected vector and then completes with the *inner return*;
`complete` discards yields, so `g.aggregate().complete(rng)` is `g`'s
return value, not the yield vector.  Witnessed by the generator
`yield(1).once().map_complete(|_| vec![])`, which yields `[1]` but whose
aggregate completes with `[]`. -/
theorem aggregate_complete_counterexample :
    runGen (mapCompleteStep (onceStep (yieldStep (1 : Nat))) fun _ => ([] : List Nat)) 3
        (((), none)) ⟨0, 0⟩ = some ([1], [], ((), none), ⟨0, 0⟩)
    ∧ completeF
        (aggregateStep (mapCompleteStep (onceStep (yieldStep (1 : Nat))) fun _ => ([] : List Nat)) 3)
        3 (none, (((), none))) ⟨0, 0⟩
      = some (([] : List Nat), (none, ((), none)), ⟨0, 0⟩)
    ∧ ([] : List Nat) ≠ [1] :=
  ⟨rfl, rfl, by decide⟩

/-- C2 (amended): for every generator `g` that completes after finitely
many steps, one round of `g.aggregate()` yields exactly one value — the
vector of all values `g` yields, in order — and then completes with `g`'s
*return* value (so `g.aggregate().complete(rng)` is `g`'s return, not the
yield vector); and the yields of `g.aggregate().repeat(k)` are exactly the
`k` yield-vectors of `k` successive exhaustions of `g`, with the `k`
returns collected.  `fuel` bounds the modelled inner loop and must exceed
every round's yield count. -/
theorem aggregate_roundtrip {S Y R : Type} {f : StepFn S Y R} {fuel : Nat} :
    (∀ {s rng ys r s' rng'}, Exhausts f s rng ys r s' rng' → ys.length < fuel →
      Exhausts (aggregateStep f fuel) (none, s) rng [ys] r (none, s') rng')
    ∧ (∀ {k s rng yss rs s' rng'}, ExhaustsN f k s rng yss rs s' rng' →
      (∀ ys ∈ yss, ys.length < fuel) →
      Exhausts (repeatStep (aggregateStep f fuel) k) ((none, s), k, ([] : List R)) rng
        yss rs ((none, s'), k, []) rng') := by
  constructor
  · exact fun h hf => aggregate_one h hf
  · intro k s rng yss rs s' rng' h hf
    have h2 := aggregate_of_exhaustsN fuel h hf
    have h3 := repeat_of_exhaustsN k h2 []
    simpa [flatten_map_singleton] using h3

theorem aggregate_roundtrip_witness :
    Exhausts (onceStep (yieldStep (1 : Nat))) (((), none)) ⟨0, 0⟩ [1] 1 (((), none)) ⟨0, 0⟩
    ∧ Exhausts (aggregateStep (onceStep (yieldStep (1 : Nat))) 2) (none, (((), none))) ⟨0, 0⟩
        [[1]] 1 (none, (((), none))) ⟨0, 0⟩ := by
  have h : Exhausts (onceStep (yieldStep (1 : Nat))) (((), none)) ⟨0, 0⟩ [1] 1
      (((), none)) ⟨0, 0⟩ := runGen_sound 2 rfl
  exact ⟨h, aggregate_roundtrip.1 h (by decide)⟩

/-- C8: every combinator in the generator library re-arms after
completing.  For each of `Once`, `Repeat`, `Chain`, `Brace`,
`Concatenate`, `Aggregate`, `Maybe` and `OneOf`: immediately after a step
returns `Complete(r)`, the combinator's own control state equals its
fresh-round value (`Once.output = None`; `Repeat.rem = len` and
`Repeat.ret = []`; `Chain.idx = 0` and `Chain.completed = []`;
`Brace.state = Begin`; `Concatenate.left_output = None`;
`Aggregate.output = None`; `Maybe.include = false`;
`OneOf.cursor = None`), so the next step begins a new round. -/
theorem combinators_rearm :
    (∀ (S Y : Type) (f : StepFn S Y Never) (st : S × Option Y) (rng : Rng) r st' rng',
      onceStep f st rng = (.complete r, st', rng') → st'.2 = none)
    ∧ (∀ (S Y R : Type) (f : StepFn S Y R) (len : Nat) st rng r st' rng',
      repeatStep f len st rng = (.complete r, st', rng') → st'.2.1 = len ∧ st'.2.2 = [])
    ∧ (∀ (S Y R : Type) (f : StepFn S Y R) st rng r st' rng',
      chainStep f st rng = (.complete r, st', rng') → st'.2.1 = 0 ∧ st'.2.2 = [])
    ∧ (∀ (S1 S2 S3 Y R1 R R3 : Type) (fb : StepFn S1 Y R1) (fg : StepFn S2 Y R)
        (fe : StepFn S3 Y R3) st rng r st' rng',
      braceStep fb fg fe st rng = (.complete r, st', rng') → st'.2.2.2 = BraceControl.bBegin)
    ∧ (∀ (S1 S2 Y R1 R2 : Type) (fl : StepFn S1 Y R1) (fr : StepFn S2 Y R2) st rng r st' rng',
      concatenateStep fl fr st rng = (.complete r, st', rng') → st'.2.1 = none)
    ∧ (∀ (S Y R : Type) (f : StepFn S Y R) (fuel : Nat) st rng r st' rng',
      aggregateStep f fuel st rng = (.complete r, st', rng') → st'.1 = none)
    ∧ (∀ (S Y R : Type) (f : StepFn S Y R) st rng r st' rng',
      maybeStep f st rng = (.complete r, st', rng') → st'.2 = false)
    ∧ (∀ (S Y R : Type) (f : StepFn S Y R) st rng r st' rng',
      oneOfStep f st rng = (.complete r, st', rng') → st'.2 = none) := by
  refine ⟨?_, ?_, ?_, ?_, ?_, ?_, ?_, ?_⟩
  · intro S Y f st rng r st' rng' h; exact once_rearm h
  · intro S Y R f len st rng r st' rng' h; exact repeatAux_rearm h
  · intro S Y R f st rng r st' rng' h; exact chain_rearm h
  · intro S1 S2 S3 Y R1 R R3 fb fg fe st rng r st' rng' h; exact brace_rearm h
  · intro S1 S2 Y R1 R2 fl fr st rng r st' rng' h; exact concatenate_rearm h
  · intro S Y R f fuel st rng r st' rng' h; exact aggregate_rearm h
  · intro S Y R f st rng r st' rng' h; exact maybe_rearm h
  · intro S Y R f st rng r st' rng' h; exact oneOf_rearm h

theorem combinators_rearm_witness :
    ((((), none) : Unit × Option Nat).2 = none)
    ∧ ((((), 1, []) : Unit × Nat × List Nat).2.1 = 1 ∧ (((), 1, []) : Unit × Nat × List Nat).2.2 = [])
    ∧ ((([()], 0, []) : List Unit × Nat × List Nat).2.1 = 0
        ∧ (([()], 0, []) : List Unit × Nat × List Nat).2.2 = [])
    ∧ ((((), (), (), .bBegin) : Unit × Unit × Unit × BraceControl Nat).2.2.2 = BraceControl.bBegin)
    ∧ ((((), none, ()) : Unit × Option Nat × Unit).2.1 = none)
    ∧ (((none, ()) : Option Nat × Unit).1 = none)
    ∧ ((((), false) : Unit × Bool).2 = false)
    ∧ (((([] : List Unit), none) : List Unit × Option (Nat × Unit)).2 = none) :=
  ⟨combinators_rearm.1 Unit Nat (yieldStep 1) ((), some 1) ⟨0, 0⟩ 1 ((), none) ⟨0, 0⟩ rfl,
   combinators_rearm.2.1 Unit Nat Nat (completePrim Nat 7) 1 ((), 1, []) ⟨0, 0⟩ [7] ((), 1, [])
     ⟨0, 0⟩ rfl,
   combinators_rearm.2.2.1 Unit Nat Nat (completePrim Nat 7) ([()], 0, []) ⟨0, 0⟩ [7]
     ([()], 0, []) ⟨0, 0⟩ (by rw [chainStep, chainAux]; simp [chainAux, completePrim]),
   combinators_rearm.2.2.2.1 Unit Unit Unit Nat Nat Nat Nat (completePrim Nat 0)
     (completePrim Nat 0) (completePrim Nat 0) ((), (), (), .bEnd 5) ⟨0, 0⟩ 5
     ((), (), (), .bBegin) ⟨0, 0⟩ rfl,
   combinators_rearm.2.2.2.2.1 Unit Unit Nat Nat Nat (completePrim Nat 1) (completePrim Nat 2)
     ((), none, ()) ⟨0, 0⟩ (1, 2) ((), none, ()) ⟨0, 0⟩ rfl,
   combinators_rearm.2.2.2.2.2.1 Unit Nat Nat (completePrim Nat 7) 3 (some 7, ()) ⟨0, 0⟩ 7
     (none, ()) ⟨0, 0⟩ rfl,
   combinators_rearm.2.2.2.2.2.2.1 Unit Nat Nat (completePrim Nat 7) ((), true) ⟨0, 0⟩ (some 7)
     ((), false) ⟨0, 0⟩ rfl,
   combinators_rearm.2.2.2.2.2.2.2 Unit Nat Nat (completePrim Nat 7) ([], none) ⟨0, 0⟩ none
     ([], none) ⟨0, 0⟩ rfl⟩

/-! ## The sampling driver of `synth/src/sampler.rs`

The driver consumes a compiled `Graph` (from `synth_core`, not under
`src/`), so the graph side is modelled from the specification; the driver
logic itself is translated from `sampler.rs`. -/

/-- Byte-wise (code-point-wise) strict ordering on strings: the `Ord`
instance of Rust's `String` that `BTreeMap<String, _>` sorts by,
lexicographic on the character sequence. -/
def strLtAux : List Char → List Char → Bool
  | [], [] => false
  | [], _ :: _ => true
  | _ :: _, [] => false
  | a :: as, b :: bs =>
    if a.val.toNat < b.val.toNat then true
    else if b.val.toNat < a.val.toNat then false
    else strLtAux as bs

/-- Strict ordering on `String` keys (see `strLtAux`). -/
def strLt (a b : String) : Bool := strLtAux a.data b.data

/-- Modelled from the spec: the uniform dynamic value type
(`synth_core::Value`, not under `src/`) — "A tagged union:
`Null | Bool | I64 | U64 | F64 | String | Bytes | DateTime | Array |
Object`".  Numeric, byte and time payloads are abstracted to `Nat`/`Int`
(no claim depends on them); `as_object` in `sampler.rs` forces `Object` to
hold a `BTreeMap<String, Value>`, modelled as an association list whose
well-formed values are sorted by `strLt` in ascending key order (the
iteration order of a `BTreeMap`). -/
inductive Value where
  | null
  | bool (b : Bool)
  | i64 (n : Int)
  | u64 (n : Nat)
  | f64 (bits : Nat)
  | str (s : String)
  | bytes (bs : List Nat)
  | dateTime (t : Nat)
  | array (elems : List Value)
  | object (fields : List (String × Value))

/-- Model of `BTreeMap::insert` on the sorted-association-list model: place the key
at its ordered position, replacing an existing binding. -/
def mapInsert (k : String) (v : Value) : List (String × Value) → List (String × Value)
  | [] => [(k, v)]
  | (k', v') :: m =>
    if strLt k k' then (k, v) :: (k', v') :: m
    else if k = k' then (k, v) :: m
    else (k', v') :: mapInsert k v m

/-- Model of `if let Value::Array(to_extend) = entry { to_extend.extend(elements) }`:
extend an array entry in place, leave any other value unchanged. -/
def extendEntry (elements : List Value) : Value → Value
  | .array xs => Value.array (xs ++ elements)
  | other => other

/-- The array branch of the driver's round loop:
`out.entry(collection).or_insert_with(|| Value::Array(vec![]))` followed by
`to_extend.extend(elements)` when the entry is an array (a non-array entry
is left unchanged, as in the source). -/
def mapExtendArray (k : String) (elements : List Value) :
    List (String × Value) → List (String × Value)
  | [] => [(k, .array elements)]
  | (k', v') :: m =>
    if strLt k k' then (k, .array elements) :: (k', v') :: m
    else if k = k' then (k', extendEntry elements v') :: m
    else (k', v') :: mapExtendArray k elements m

/-- Model of `BTreeMap::remove`: the removed value (if any) and the remaining
map. -/
def mapRemoveEntry (k : String) : List (String × Value) → Option Value × List (String × Value)
  | [] => (none, [])
  | (k', v') :: m =>
    if k = k' then (some v', m)
    else
      let (r, m') := mapRemoveEntry k m
      (r, (k', v') :: m')

/-- Model of `as_object` of `sampler.rs`: accept an `Object` sample, reject any
other top-level value (the driver turns the rejection into an error). -/
def asObject : Value → Option (List (String × Value))
  | .object obj => some obj
  | _ => none

/-- Modelled from the spec: the compiled generator graph
(`synth_core::Graph`, not under `src/`).  The driver only ever invokes
`complete` on the `aggregate()`-wrapped graph; one such call produces one
namespace snapshot and threads the RNG (`Aggregate` merely buffers the
round's yields into one vector that `complete` then discards, so wrapping
changes neither the returned snapshot nor the RNG consumption).  `state`
is the graph's mutable generator state and `ordered` is
`Graph::iter_ordered`, the topological order of collections computed
during compilation (`None` when no order was computed). -/
structure Graph (S : Type) where
  complete : S → Rng → Value × S × Rng
  state : S
  ordered : Option (List String)

/-- The errors surfaced by the embedded driver.  `outOfFuel` is a model
artefact: the source loop is unbounded, and the entry points call the
loops with enough fuel that it never occurs (proved below).
`panicUnwrap` models the `out.remove(&name).unwrap()` panic of the
namespace reordering pass. -/
inductive SampleError where
  | notObject
  | missingCollection (name : String)
  | panicUnwrap
  | outOfFuel
deriving DecidableEq, Repr

/-- One collection's contribution to a round: an array appends its
elements (counting by element), anything else replaces the entry
(counting by one). -/
def foldRoundStep (collection : String) (v : Value) (generated : Nat)
    (out : List (String × Value)) : Nat × List (String × Value) :=
  match v with
  | .array elements => (generated + elements.length, mapExtendArray collection elements out)
  | nonArray => (generated + 1, mapInsert collection nonArray out)

/-- One round of the namespace accumulation: walk the snapshot's
collections, folding each into the accumulator. -/
def foldRound : List (String × Value) → Nat × List (String × Value) → Nat × List (String × Value)
  | [], acc => acc
  | (collection, v) :: rest, (generated, out) =>
    foldRound rest (foldRoundStep collection v generated out)

/-- The body of one iteration of `NamespaceSampleStrategy::sample`'s
loop: complete the model once, require an object snapshot, and fold it
into the accumulator. -/
def nsRound (completeFn : S → Rng → Value × S × Rng) (generated : Nat)
    (out : List (String × Value)) (s : S) (rng : Rng) :
    Except SampleError ((Nat × List (String × Value)) × S × Rng) :=
  let (next, s', rng') := completeFn s rng
  match asObject next with
  | none => .error .notObject
  | some obj => .ok (foldRound obj (generated, out), s', rng')

/-- The loop of `NamespaceSampleStrategy::sample`: while `generated <
target`, complete one round, accumulate it, and stop with a warning
(the returned flag) if the round added nothing.  `fuel` bounds the
iteration count of the modelled unbounded loop. -/
def nsSampleLoop (completeFn : S → Rng → Value × S × Rng) (target : Nat) :
    Nat → Nat → List (String × Value) → S → Rng →
    Except SampleError (List (String × Value) × Nat × Bool)
  | 0, _, _, _, _ => .error .outOfFuel
  | fuel + 1, generated, out, s, rng =>
    if generated < target then
      match nsRound completeFn generated out s rng with
      | .error e => .error e
      | .ok ((generated', out'), s', rng') =>
        if generated' = generated then .ok (out', generated', true)
        else nsSampleLoop completeFn target fuel generated' out' s' rng'
    else .ok (out, generated, false)

/-- The reordering pass of `NamespaceSampleStrategy::sample`:
`for name in ordered { out.remove(&name).unwrap() }`, pushing the removed
pairs in order; `none` models the `unwrap` panic on a missing name. -/
def reorderLoop (out : List (String × Value)) (acc : List (String × Value)) :
    List String → Option (List (String × Value) × List (String × Value))
  | [] => some (acc, out)
  | name :: rest =>
    match mapRemoveEntry name out with
    | (some v, out') => reorderLoop out' (acc ++ [(name, v)]) rest
    | (none, _) => none

/-- Model of `NamespaceSampleStrategy::sample`: run the accumulation loop (with
fuel `target + 1`, which suffices — each continuing round strictly
increases `generated`), then emit the collections of the computed
topological order first and the rest of the accumulator (in its `BTreeMap`
iteration order) after.  The returned flag records whether the stall
warning was emitted. -/
def NamespaceSampleStrategy.sample (g : Graph S) (target : Nat) (rng : Rng) :
    Except SampleError (List (String × Value) × Bool) :=
  match nsSampleLoop g.complete target (target + 1) 0 [] g.state rng with
  | .error e => .error e
  | .ok (out, _, warned) =>
    match reorderLoop out [] (g.ordered.getD []) with
    | none => .error .panicUnwrap
    | some (ordered_out, rest) => .ok (ordered_out ++ rest, warned)

/-- The per-round accumulator update of `CollectionSampleStrategy::sample`:
array values extend the running array (or are dropped when a scalar
replaced it earlier); scalar values replace the accumulator and count by
one. -/
def collRoundUpdate (collectionValue : Value) (generated : Nat) (out : Value) : Nat × Value :=
  match collectionValue with
  | .array vec =>
    (generated + vec.length,
      match out with
      | .array to_extend => Value.array (to_extend ++ vec)
      | other => other)
  | nonArray => (generated + 1, nonArray)

/-- The body of one iteration of `CollectionSampleStrategy::sample`'s
loop: complete the model once, require an object snapshot, take *only*
the selected collection out of it (all others are discarded), erroring
if it is absent, and fold it into the accumulator. -/
def collRound (completeFn : S → Rng → Value × S × Rng) (name : String) (generated : Nat)
    (out : Value) (s : S) (rng : Rng) :
    Except SampleError ((Nat × Value) × S × Rng) :=
  let (next, s', rng') := completeFn s rng
  match asObject next with
  | none => .error .notObject
  | some obj =>
    match (mapRemoveEntry name obj).1 with
    | none => .error (.missingCollection name)
    | some collectionValue => .ok (collRoundUpdate collectionValue generated out, s', rng')

/-- The loop of `CollectionSampleStrategy::sample`: accumulate and
stall-check as in namespace mode, but with per-round contributions drawn
from the selected collection only. -/
def collSampleLoop (completeFn : S → Rng → Value × S × Rng) (name : String) (target : Nat) :
    Nat → Nat → Value → S → Rng → Except SampleError (Value × Nat × Bool)
  | 0, _, _, _, _ => .error .outOfFuel
  | fuel + 1, generated, out, s, rng =>
    if generated < target then
      match collRound completeFn name generated out s rng with
      | .error e => .error e
      | .ok ((generated', out'), s', rng') =>
        if generated' = generated then .ok (out', generated', true)
        else collSampleLoop completeFn name target fuel generated' out' s' rng'
    else .ok (out, generated, false)

/-- Model of `CollectionSampleStrategy::sample`, starting from the empty array
accumulator. -/
def CollectionSampleStrategy.sample (g : Graph S) (name : String) (target : Nat) (rng : Rng) :
    Except SampleError (Value × Nat × Bool) :=
  collSampleLoop g.complete name target (target + 1) 0 (.array []) g.state rng

/-- Model of `SamplerOutput` of `sampler.rs`. -/
inductive SamplerOutput where
  | namespaceOut (kvs : List (String × Value))
  | collectionOut (name : String) (value : Value)

/-- Model of `StdRng::seed_from_u64`: the RNG stream is a pure function of the
64-bit seed. -/
def seedFromU64 (seed : Nat) : Rng := ⟨seed % 18446744073709551616, 0⟩

/-- Model of `Sampler::sample_seeded` composed with `SampleStrategy::new` and
`SampleStrategy::sample`: build the RNG from the seed, then run namespace
or collection mode according to the optional collection name. -/
def sample_seeded (g : Graph S) (collection_name : Option String) (target : Nat)
    (seed : Nat) : Except SampleError SamplerOutput :=
  let rng := seedFromU64 seed
  match collection_name with
  | none =>
    match NamespaceSampleStrategy.sample g target rng with
    | .error e => .error e
    | .ok out => .ok (.namespaceOut out.1)
  | some name =>
    match CollectionSampleStrategy.sample g name target rng with
    | .error e => .error e
    | .ok out => .ok (.collectionOut name out.1)

/-- A well-formed `BTreeMap` representation: strictly ascending keys. -/
def MapSorted (m : List (String × Value)) : Prop :=
  List.Chain' (fun p q => strLt p.1 q.1 = true) m

/-! ### The key order -/

theorem strLtAux_irrefl : ∀ l, strLtAux l l = false := by
  intro l
  induction l with
  | nil => rfl
  | cons a as ih => simp [strLtAux, ih]

theorem strLtAux_trans : ∀ a b c, strLtAux a b = true → strLtAux b c = true →
    strLtAux a c = true := by
  intro a
  induction a with
  | nil =>
    intro b c hab hbc
    cases b with
    | nil => exact hbc
    | cons y bs =>
      cases c with
      | nil => simp [strLtAux] at hbc
      | cons z cs => rfl
  | cons x as ih =>
    intro b c hab hbc
    cases b with
    | nil => simp [strLtAux] at hab
    | cons y bs =>
      cases c with
      | nil => simp [strLtAux] at hbc
      | cons z cs =>
        simp only [strLtAux] at hab hbc ⊢
        by_cases hxy : x.val.toNat < y.val.toNat
        · by_cases hyz : y.val.toNat < z.val.toNat
          · simp [show x.val.toNat < z.val.toNat by omega]
          · simp only [hyz, if_neg, if_false] at hbc
            by_cases hzy : z.val.toNat < y.val.toNat
            · simp [hzy] at hbc
            · simp [show x.val.toNat < z.val.toNat by omega]
        · simp only [hxy, if_neg, if_false] at hab
          by_cases hyx : y.val.toNat < x.val.toNat
          · simp [hyx] at hab
          · rw [if_neg hyx] at hab
            by_cases hyz : y.val.toNat < z.val.toNat
            · simp [show x.val.toNat < z.val.toNat by omega]
            · simp only [hyz, if_neg, if_false] at hbc
              by_cases hzy : z.val.toNat < y.val.toNat
              · simp [hzy] at hbc
              · rw [if_neg hzy] at hbc
                have hxz : ¬x.val.toNat < z.val.toNat := by omega
                have hzx : ¬z.val.toNat < x.val.toNat := by omega
                simp only [hxz, hzx, if_neg, if_false]
                exact ih bs cs hab hbc

theorem strLtAux_antisymm_eq : ∀ a b, strLtAux a b = false → strLtAux b a = false → a = b := by
  intro a
  induction a with
  | nil =>
    intro b hab _
    cases b with
    | nil => rfl
    | cons y bs => simp [strLtAux] at hab
  | cons x as ih =>
    intro b hab hba
    cases b with
    | nil => simp [strLtAux] at hba
    | cons y bs =>
      simp only [strLtAux] at hab hba
      by_cases hxy : x.val.toNat < y.val.toNat
      · simp [hxy] at hab
      · by_cases hyx : y.val.toNat < x.val.toNat
        · simp [hyx] at hba
        · simp only [hxy, hyx, if_neg, if_false] at hab hba
          have hx : x = y := by
            have : x.val = y.val := by
              apply UInt32.ext
              omega
            exact Char.ext this
          rw [hx, ih bs hab hba]

theorem strLt_irrefl (a : String) : strLt a a = false := strLtAux_irrefl a.data

theorem strLt_trans {a b c : String} (hab : strLt a b = true) (hbc : strLt b c = true) :
    strLt a c = true := strLtAux_trans a.data b.data c.data hab hbc

theorem strLt_antisymm_eq {a b : String} (hab : strLt a b = false) (hba : strLt b a = false) :
    a = b := by
  have h := strLtAux_antisymm_eq a.data b.data hab hba
  cases a; cases b
  exact congrArg String.mk h

theorem strLt_of_not {a b : String} (hne : a ≠ b) (hab : strLt a b = false) :
    strLt b a = true := by
  by_contra h
  exact hne (strLt_antisymm_eq hab (by revert h; cases strLt b a <;> simp))

theorem strLt_ne {a b : String} (h : strLt a b = true) : a ≠ b := by
  intro he
  rw [he, strLt_irrefl] at h
  exact Bool.false_ne_true h

/-! ### Operations on the map model -/

theorem mapInsert_sorted {k v} : ∀ {m}, MapSorted m → MapSorted (mapInsert k v m) := by
  intro m
  induction m with
  | nil => intro _; simp [mapInsert, MapSorted]
  | cons p rest ih =>
    intro hs
    rcases p with ⟨k', v'⟩
    rw [mapInsert]
    by_cases h1 : strLt k k' = true
    · rw [if_pos h1]
      exact List.Chain'.cons h1 hs
    · rw [if_neg h1]
      by_cases h2 : k = k'
      · rw [if_pos h2]
        subst h2
        cases rest with
        | nil => simp [MapSorted]
        | cons q rest' =>
          have := (List.chain'_cons.mp hs)
          exact List.chain'_cons.mpr ⟨this.1, this.2⟩
      · rw [if_neg h2]
        have hk'k : strLt k' k = true := strLt_of_not h2 (by revert h1; cases strLt k k' <;> simp)
        have hrest : MapSorted rest := hs.tail
        have hins := ih hrest
        cases rest with
        | nil =>
          simp only [mapInsert]
          exact List.chain'_cons.mpr ⟨hk'k, List.chain'_singleton _⟩
        | cons q rest' =>
          rcases q with ⟨k2, v2⟩
          have hchain := List.chain'_cons.mp hs
          rw [mapInsert] at hins ⊢
          by_cases h3 : strLt k k2 = true
          · rw [if_pos h3] at hins ⊢
            exact List.chain'_cons.mpr ⟨hk'k, hins⟩
          · rw [if_neg h3] at hins ⊢
            by_cases h4 : k = k2
            · rw [if_pos h4] at hins ⊢
              exact List.chain'_cons.mpr ⟨hk'k, hins⟩
            · rw [if_neg h4] at hins ⊢
              exact List.chain'_cons.mpr ⟨hchain.1, hins⟩

theorem mapExtendArray_sorted {k elements} : ∀ {m}, MapSorted m →
    MapSorted (mapExtendArray k elements m) := by
  intro m
  induction m with
  | nil => intro _; simp [mapExtendArray, MapSorted]
  | cons p rest ih =>
    intro hs
    rcases p with ⟨k', v'⟩
    rw [mapExtendArray]
    by_cases h1 : strLt k k' = true
    · rw [if_pos h1]
      exact List.Chain'.cons h1 hs
    · rw [if_neg h1]
      by_cases h2 : k = k'
      · rw [if_pos h2]
        cases rest with
        | nil => simp [MapSorted]
        | cons q rest' =>
          have := (List.chain'_cons.mp hs)
          exact List.chain'_cons.mpr ⟨this.1, this.2⟩
      · rw [if_neg h2]
        have hk'k : strLt k' k = true := strLt_of_not h2 (by revert h1; cases strLt k k' <;> simp)
        have hrest : MapSorted rest := hs.tail
        have hins := ih hrest
        cases rest with
        | nil =>
          simp only [mapExtendArray]
          exact List.chain'_cons.mpr ⟨hk'k, List.chain'_singleton _⟩
        | cons q rest' =>
          rcases q with ⟨k2, v2⟩
          have hchain := List.chain'_cons.mp hs
          rw [mapExtendArray] at hins ⊢
          by_cases h3 : strLt k k2 = true
          · rw [if_pos h3] at hins ⊢
            exact List.chain'_cons.mpr ⟨hk'k, hins⟩
          · rw [if_neg h3] at hins ⊢
            by_cases h4 : k = k2
            · rw [if_pos h4] at hins ⊢
              exact List.chain'_cons.mpr ⟨by rw [← h4]; exact hk'k, hins⟩
            · rw [if_neg h4] at hins ⊢
              exact List.chain'_cons.mpr ⟨hchain.1, hins⟩

theorem mapRemoveEntry_sorted {k} : ∀ {m}, MapSorted m → MapSorted (mapRemoveEntry k m).2 := by
  intro m
  induction m with
  | nil => intro _; simp [mapRemoveEntry, MapSorted]
  | cons p rest ih =>
    intro hs
    rcases p with ⟨k', v'⟩
    rw [mapRemoveEntry]
    by_cases h1 : k = k'
    · rw [if_pos h1]
      exact hs.tail
    · rw [if_neg h1]
      have hrest := ih hs.tail
      cases rest with
      | nil => simp [mapRemoveEntry, MapSorted]
      | cons q rest' =>
        rcases q with ⟨k2, v2⟩
        have hchain := List.chain'_cons.mp hs
        rw [mapRemoveEntry] at hrest ⊢
        by_cases h2 : k = k2
        · rw [if_pos h2] at hrest ⊢
          simp only
          cases rest' with
          | nil => simp [MapSorted]
          | cons q2 rest2 =>
            have hc2 := List.chain'_cons.mp hs.tail
            exact List.chain'_cons.mpr
              ⟨strLt_trans hchain.1 hc2.1, by simpa using hrest⟩
        · rw [if_neg h2] at hrest ⊢
          simp only
          exact List.chain'_cons.mpr ⟨hchain.1, by simpa using hrest⟩

/-! ### Key-set lemmas -/

theorem mem_keys_mapInsert_self {k v} : ∀ (m : List (String × Value)),
    k ∈ (mapInsert k v m).map Prod.fst := by
  intro m
  induction m with
  | nil => simp [mapInsert]
  | cons p rest ih =>
    rcases p with ⟨k', v'⟩
    rw [mapInsert]
    by_cases h1 : strLt k k' = true
    · simp [h1]
    · rw [if_neg h1]
      by_cases h2 : k = k'
      · simp [h2]
      · rw [if_neg h2]
        simpa using Or.inr ih

theorem mem_keys_mapInsert_of {k v k0} : ∀ {m : List (String × Value)},
    k0 ∈ m.map Prod.fst → k0 ∈ (mapInsert k v m).map Prod.fst := by
  intro m
  induction m with
  | nil => simp
  | cons p rest ih =>
    rcases p with ⟨k', v'⟩
    intro hm
    rw [mapInsert]
    by_cases h1 : strLt k k' = true
    · simpa [h1] using Or.inr hm
    · rw [if_neg h1]
      by_cases h2 : k = k'
      · rcases (by simpa using hm : k0 = k' ∨ k0 ∈ rest.map Prod.fst) with h | h
        · simp [h2, h]
        · simpa [h2] using Or.inr h
      · rw [if_neg h2]
        rcases (by simpa using hm : k0 = k' ∨ k0 ∈ rest.map Prod.fst) with h | h
        · simp [h]
        · simpa using Or.inr (ih h)

theorem mem_keys_mapExtendArray_self {k elements} : ∀ (m : List (String × Value)),
    k ∈ (mapExtendArray k elements m).map Prod.fst := by
  intro m
  induction m with
  | nil => simp [mapExtendArray]
  | cons p rest ih =>
    rcases p with ⟨k', v'⟩
    rw [mapExtendArray]
    by_cases h1 : strLt k k' = true
    · simp [h1]
    · rw [if_neg h1]
      by_cases h2 : k = k'
      · simp [h2]
      · rw [if_neg h2]
        simpa using Or.inr ih

theorem mem_keys_mapExtendArray_of {k elements k0} : ∀ {m : List (String × Value)},
    k0 ∈ m.map Prod.fst → k0 ∈ (mapExtendArray k elements m).map Prod.fst := by
  intro m
  induction m with
  | nil => simp
  | cons p rest ih =>
    rcases p with ⟨k', v'⟩
    intro hm
    rw [mapExtendArray]
    by_cases h1 : strLt k k' = true
    · simpa [h1] using Or.inr hm
    · rw [if_neg h1]
      by_cases h2 : k = k'
      · rcases (by simpa using hm : k0 = k' ∨ k0 ∈ rest.map Prod.fst) with h | h
        · simp [h2, h]
        · simpa [h2] using Or.inr h
      · rw [if_neg h2]
        rcases (by simpa using hm : k0 = k' ∨ k0 ∈ rest.map Prod.fst) with h | h
        · simp [h]
        · simpa using Or.inr (ih h)

theorem mapRemoveEntry_found {k} : ∀ {m : List (String × Value)},
    k ∈ m.map Prod.fst → ∃ v, (mapRemoveEntry k m).1 = some v := by
  intro m
  induction m with
  | nil => simp
  | cons p rest ih =>
    rcases p with ⟨k', v'⟩
    intro hm
    rw [mapRemoveEntry]
    by_cases h1 : k = k'
    · rw [if_pos h1]; exact ⟨v', rfl⟩
    · rw [if_neg h1]
      rcases (by simpa using hm : k = k' ∨ k ∈ rest.map Prod.fst) with h | h
      · exact absurd h h1
      · rcases ih h with ⟨v, hv⟩
        exact ⟨v, by simp [hv]⟩

theorem mem_keys_mapRemoveEntry_of {k k0} (hne : k0 ≠ k) : ∀ {m : List (String × Value)},
    k0 ∈ m.map Prod.fst → k0 ∈ ((mapRemoveEntry k m).2).map Prod.fst := by
  intro m
  induction m with
  | nil => simp
  | cons p rest ih =>
    rcases p with ⟨k', v'⟩
    intro hm
    rcases (by simpa using hm : k0 = k' ∨ k0 ∈ rest.map Prod.fst) with h | h
    · rw [mapRemoveEntry]
      by_cases h1 : k = k'
      · exact absurd (h1 ▸ h) hne
      · rw [if_neg h1]
        simp [h]
    · rw [mapRemoveEntry]
      by_cases h1 : k = k'
      · rw [if_pos h1]; exact h
      · rw [if_neg h1]
        simpa using Or.inr (ih h)

theorem mapRemoveEntry_keys_sub (k k0 : String) : ∀ (m : List (String × Value)),
    k0 ∈ ((mapRemoveEntry k m).2).map Prod.fst → k0 ∈ m.map Prod.fst := by
  intro m
  induction m with
  | nil => simp [mapRemoveEntry]
  | cons p rest ih =>
    rcases p with ⟨k', v'⟩
    rw [mapRemoveEntry]
    by_cases h1 : k = k'
    · rw [if_pos h1]
      intro h
      simpa using Or.inr h
    · rw [if_neg h1]
      intro h
      rcases (by simpa using h : k0 = k' ∨ k0 ∈ ((mapRemoveEntry k rest).2).map Prod.fst) with h2 | h2
      · simp [h2]
      · simpa using Or.inr (ih h2)

theorem sorted_head_lt : ∀ (a : String) (b : Value) (rest : List (String × Value)),
    MapSorted ((a, b) :: rest) → ∀ p ∈ rest, strLt a p.1 = true := by
  intro a b rest
  induction rest generalizing a b with
  | nil => intro _ p hp; simp at hp
  | cons q rest' ih =>
    intro hs p hp
    have hchain := List.chain'_cons.mp hs
    rcases (by simpa using hp : p = q ∨ p ∈ rest') with h | h
    · rw [h]; exact hchain.1
    · exact strLt_trans hchain.1 (ih q.1 q.2 (by simpa using hchain.2) p h)

theorem not_mem_keys_mapRemoveEntry {k} : ∀ {m : List (String × Value)},
    MapSorted m → k ∉ ((mapRemoveEntry k m).2).map Prod.fst := by
  intro m
  induction m with
  | nil => simp [mapRemoveEntry]
  | cons p rest ih =>
    rcases p with ⟨k', v'⟩
    intro hs
    rw [mapRemoveEntry]
    by_cases h1 : k = k'
    · rw [if_pos h1]
      intro hmem
      simp only [List.mem_map] at hmem
      rcases hmem with ⟨p, hp, hfst⟩
      have := sorted_head_lt _ _ _ hs p hp
      rw [hfst, ← h1] at this
      rw [strLt_irrefl] at this
      exact Bool.false_ne_true this
    · rw [if_neg h1]
      intro hmem
      rcases (by simpa using hmem : k = k' ∨ k ∈ ((mapRemoveEntry k rest).2).map Prod.fst)
        with h2 | h2
      · exact h1 h2
      · exact ih hs.tail h2

/-! ### Round and loop lemmas, namespace mode -/

theorem foldRoundStep_count_ge (c : String) (v : Value) (gen : Nat) (out) :
    gen ≤ (foldRoundStep c v gen out).1 := by
  cases v <;> simp [foldRoundStep]

theorem foldRoundStep_sorted {c v gen out} (h : MapSorted out) :
    MapSorted (foldRoundStep c v gen out).2 := by
  cases v <;> simp only [foldRoundStep] <;>
    first
      | exact mapExtendArray_sorted h
      | exact mapInsert_sorted h

theorem foldRoundStep_keys_of {c v gen out k0} (h : k0 ∈ out.map Prod.fst) :
    k0 ∈ ((foldRoundStep c v gen out).2).map Prod.fst := by
  cases v <;> simp only [foldRoundStep] <;>
    first
      | exact mem_keys_mapExtendArray_of h
      | exact mem_keys_mapInsert_of h

theorem foldRoundStep_keys_self (c : String) (v : Value) (gen : Nat) (out) :
    c ∈ ((foldRoundStep c v gen out).2).map Prod.fst := by
  cases v <;> simp only [foldRoundStep] <;>
    first
      | exact mem_keys_mapExtendArray_self out
      | exact mem_keys_mapInsert_self out

theorem foldRound_count_ge : ∀ (obj : List (String × Value)) (acc : Nat × List (String × Value)),
    acc.1 ≤ (foldRound obj acc).1 := by
  intro obj
  induction obj with
  | nil => intro acc; simp [foldRound]
  | cons p rest ih =>
    intro acc
    rcases acc with ⟨gen, out⟩
    rcases p with ⟨c, v⟩
    rw [foldRound]
    exact le_trans (foldRoundStep_count_ge c v gen out) (ih _)

theorem foldRound_sorted : ∀ (obj : List (String × Value)) (acc : Nat × List (String × Value)),
    MapSorted acc.2 → MapSorted (foldRound obj acc).2 := by
  intro obj
  induction obj with
  | nil => intro acc h; simpa [foldRound] using h
  | cons p rest ih =>
    intro acc h
    rcases acc with ⟨gen, out⟩
    rcases p with ⟨c, v⟩
    rw [foldRound]
    exact ih _ (foldRoundStep_sorted h)

theorem foldRound_keys_of {k0} :
    ∀ (obj : List (String × Value)) (acc : Nat × List (String × Value)),
    k0 ∈ acc.2.map Prod.fst → k0 ∈ ((foldRound obj acc).2).map Prod.fst := by
  intro obj
  induction obj with
  | nil => intro acc h; simpa [foldRound] using h
  | cons p rest ih =>
    intro acc h
    rcases acc with ⟨gen, out⟩
    rcases p with ⟨c, v⟩
    rw [foldRound]
    exact ih _ (foldRoundStep_keys_of h)

theorem foldRound_keys_obj {k0} :
    ∀ (obj : List (String × Value)) (acc : Nat × List (String × Value)),
    k0 ∈ obj.map Prod.fst → k0 ∈ ((foldRound obj acc).2).map Prod.fst := by
  intro obj
  induction obj with
  | nil => intro acc h; simp at h
  | cons p rest ih =>
    intro acc h
    rcases acc with ⟨gen, out⟩
    rcases p with ⟨c, v⟩
    rw [foldRound]
    rcases (by simpa using h : k0 = c ∨ k0 ∈ rest.map Prod.fst) with h1 | h1
    · subst h1
      exact foldRound_keys_of rest _ (foldRoundStep_keys_self k0 v gen out)
    · exact ih _ h1

theorem nsRound_ok {completeFn : S → Rng → Value × S × Rng} {gen out s rng gen' out' s' rng'}
    (h : nsRound completeFn gen out s rng = .ok ((gen', out'), s', rng')) :
    ∃ obj, (completeFn s rng).1 = .object obj ∧ foldRound obj (gen, out) = (gen', out') := by
  rw [nsRound] at h
  rcases hc : completeFn s rng with ⟨next, s1, rng1⟩
  rw [hc] at h
  simp only at h
  cases next <;> simp [asObject] at h
  case object obj =>
    exact ⟨obj, rfl, h.1⟩

theorem nsRound_error {completeFn : S → Rng → Value × S × Rng} {gen out s rng e}
    (h : nsRound completeFn gen out s rng = .error e) : e = SampleError.notObject := by
  rw [nsRound] at h
  rcases hc : completeFn s rng with ⟨next, s1, rng1⟩
  rw [hc] at h
  simp only at h
  cases next <;> simp_all [asObject]

theorem nsRound_count_ge {completeFn : S → Rng → Value × S × Rng}
    {gen out s rng gen' out' s' rng'}
    (h : nsRound completeFn gen out s rng = .ok ((gen', out'), s', rng')) : gen ≤ gen' := by
  rcases nsRound_ok h with ⟨obj, _, hfold⟩
  have := foldRound_count_ge obj (gen, out)
  rw [hfold] at this
  exact this

theorem nsRound_sorted {completeFn : S → Rng → Value × S × Rng}
    {gen out s rng gen' out' s' rng'}
    (h : nsRound completeFn gen out s rng = .ok ((gen', out'), s', rng'))
    (hs : MapSorted out) : MapSorted out' := by
  rcases nsRound_ok h with ⟨obj, _, hfold⟩
  have := foldRound_sorted obj (gen, out) hs
  rw [hfold] at this
  exact this

theorem nsRound_keys_of {completeFn : S → Rng → Value × S × Rng}
    {gen out s rng gen' out' s' rng' k0}
    (h : nsRound completeFn gen out s rng = .ok ((gen', out'), s', rng'))
    (hk : k0 ∈ out.map Prod.fst) : k0 ∈ out'.map Prod.fst := by
  rcases nsRound_ok h with ⟨obj, _, hfold⟩
  have := foldRound_keys_of obj (gen, out) hk
  rw [hfold] at this
  exact this

theorem nsRound_keys_names {completeFn : S → Rng → Value × S × Rng} {names : List String}
    {gen out s rng gen' out' s' rng'}
    (h : nsRound completeFn gen out s rng = .ok ((gen', out'), s', rng'))
    (hobj : ∃ obj, (completeFn s rng).1 = .object obj ∧
      ∀ n ∈ names, n ∈ obj.map Prod.fst) :
    ∀ n ∈ names, n ∈ out'.map Prod.fst := by
  rcases nsRound_ok h with ⟨obj, hv, hfold⟩
  rcases hobj with ⟨obj2, hv2, hmem⟩
  rw [hv] at hv2
  have hoo : obj = obj2 := by injection hv2
  intro n hn
  have := foldRound_keys_obj obj (gen, out) (hoo ▸ hmem n hn)
  rw [hfold] at this
  exact this

theorem nsLoop_no_outOfFuel {completeFn : S → Rng → Value × S × Rng} {target : Nat} :
    ∀ {fuel gen out s rng}, target - gen < fuel →
    nsSampleLoop completeFn target fuel gen out s rng ≠ .error .outOfFuel := by
  intro fuel
  induction fuel with
  | zero => intro gen out s rng h; omega
  | succ n ih =>
    intro gen out s rng h
    rw [nsSampleLoop]
    by_cases hlt : gen < target
    · rw [if_pos hlt]
      cases hr : nsRound completeFn gen out s rng with
      | error e =>
        rw [nsRound_error hr]
        simp
      | ok res =>
        rcases res with ⟨⟨gen', out'⟩, s', rng'⟩
        simp only
        by_cases hstall : gen' = gen
        · rw [if_pos hstall]; simp
        · rw [if_neg hstall]
          have hge : gen ≤ gen' := nsRound_count_ge hr
          exact ih (by omega)
    · rw [if_neg hlt]; simp

theorem nsLoop_ok_false {completeFn : S → Rng → Value × S × Rng} {target : Nat} :
    ∀ {fuel gen out s rng out' gen'},
    nsSampleLoop completeFn target fuel gen out s rng = .ok (out', gen', false) →
    target ≤ gen' := by
  intro fuel
  induction fuel with
  | zero => intro gen out s rng out' gen' h; simp [nsSampleLoop] at h
  | succ n ih =>
    intro gen out s rng out' gen' h
    rw [nsSampleLoop] at h
    by_cases hlt : gen < target
    · rw [if_pos hlt] at h
      cases hr : nsRound completeFn gen out s rng with
      | error e => rw [hr] at h; simp at h
      | ok res =>
        rcases res with ⟨⟨gen1, out1⟩, s1, rng1⟩
        rw [hr] at h
        simp only at h
        by_cases hstall : gen1 = gen
        · rw [if_pos hstall] at h; simp at h
        · rw [if_neg hstall] at h
          exact ih h
    · rw [if_neg hlt] at h
      simp only [Except.ok.injEq, Prod.mk.injEq] at h
      omega

theorem nsLoop_ok_true {completeFn : S → Rng → Value × S × Rng} {target : Nat} :
    ∀ {fuel gen out s rng out' gen'},
    nsSampleLoop completeFn target fuel gen out s rng = .ok (out', gen', true) →
    gen' < target ∧ ∃ out0 s0 rng0 s1 rng1,
      nsRound completeFn gen' out0 s0 rng0 = .ok ((gen', out'), s1, rng1) := by
  intro fuel
  induction fuel with
  | zero => intro gen out s rng out' gen' h; simp [nsSampleLoop] at h
  | succ n ih =>
    intro gen out s rng out' gen' h
    rw [nsSampleLoop] at h
    by_cases hlt : gen < target
    · rw [if_pos hlt] at h
      cases hr : nsRound completeFn gen out s rng with
      | error e => rw [hr] at h; simp at h
      | ok res =>
        rcases res with ⟨⟨gen1, out1⟩, s1, rng1⟩
        rw [hr] at h
        simp only at h
        by_cases hstall : gen1 = gen
        · rw [if_pos hstall] at h
          simp only [Except.ok.injEq, Prod.mk.injEq] at h
          obtain ⟨hout, hgen, -⟩ := h
          refine ⟨by omega, out, s, rng, s1, rng1, ?_⟩
          rw [← hgen, ← hout, hstall]
          rw [hstall] at hr
          exact hr
        · rw [if_neg hstall] at h
          exact ih h
    · rw [if_neg hlt] at h
      simp at h

theorem nsLoop_sorted {completeFn : S → Rng → Value × S × Rng} {target : Nat} :
    ∀ {fuel gen out s rng out' gen' w},
    nsSampleLoop completeFn target fuel gen out s rng = .ok (out', gen', w) →
    MapSorted out → MapSorted out' := by
  intro fuel
  induction fuel with
  | zero => intro gen out s rng out' gen' w h; simp [nsSampleLoop] at h
  | succ n ih =>
    intro gen out s rng out' gen' w h hs
    rw [nsSampleLoop] at h
    by_cases hlt : gen < target
    · rw [if_pos hlt] at h
      cases hr : nsRound completeFn gen out s rng with
      | error e => rw [hr] at h; simp at h
      | ok res =>
        rcases res with ⟨⟨gen1, out1⟩, s1, rng1⟩
        rw [hr] at h
        simp only at h
        by_cases hstall : gen1 = gen
        · rw [if_pos hstall] at h
          simp only [Except.ok.injEq, Prod.mk.injEq] at h
          rw [← h.1]
          exact nsRound_sorted hr hs
        · rw [if_neg hstall] at h
          exact ih h (nsRound_sorted hr hs)
    · rw [if_neg hlt] at h
      simp only [Except.ok.injEq, Prod.mk.injEq] at h
      rw [← h.1]
      exact hs

theorem nsLoop_keys {completeFn : S → Rng → Value × S × Rng} {target : Nat} :
    ∀ {fuel gen out s rng out' gen' w},
    nsSampleLoop completeFn target fuel gen out s rng = .ok (out', gen', w) →
    ∀ k0 ∈ out.map Prod.fst, k0 ∈ out'.map Prod.fst := by
  intro fuel
  induction fuel with
  | zero => intro gen out s rng out' gen' w h; simp [nsSampleLoop] at h
  | succ n ih =>
    intro gen out s rng out' gen' w h k0 hk
    rw [nsSampleLoop] at h
    by_cases hlt : gen < target
    · rw [if_pos hlt] at h
      cases hr : nsRound completeFn gen out s rng with
      | error e => rw [hr] at h; simp at h
      | ok res =>
        rcases res with ⟨⟨gen1, out1⟩, s1, rng1⟩
        rw [hr] at h
        simp only at h
        by_cases hstall : gen1 = gen
        · rw [if_pos hstall] at h
          simp only [Except.ok.injEq, Prod.mk.injEq] at h
          rw [← h.1]
          exact nsRound_keys_of hr hk
        · rw [if_neg hstall] at h
          exact ih h k0 (nsRound_keys_of hr hk)
    · rw [if_neg hlt] at h
      simp only [Except.ok.injEq, Prod.mk.injEq] at h
      rw [← h.1]
      exact hk

theorem nsLoop_ok_of_obj {completeFn : S → Rng → Value × S × Rng} (target : Nat)
    (hobj : ∀ (s : S) (rng : Rng), ∃ obj, (completeFn s rng).1 = .object obj) :
    ∀ (fuel gen : Nat) (out : List (String × Value)) (s : S) (rng : Rng), target - gen < fuel →
    ∃ out' gen' w, nsSampleLoop completeFn target fuel gen out s rng = .ok (out', gen', w) := by
  intro fuel
  induction fuel with
  | zero => intro gen out s rng h; omega
  | succ n ih =>
    intro gen out s rng h
    rw [nsSampleLoop]
    by_cases hlt : gen < target
    · rw [if_pos hlt]
      rcases hobj s rng with ⟨obj, hv⟩
      rcases hc : completeFn s rng with ⟨next, s1, rng1⟩
      rw [hc] at hv
      have hv' : next = Value.object obj := hv
      subst hv'
      have hr : nsRound completeFn gen out s rng = .ok (foldRound obj (gen, out), s1, rng1) := by
        rw [nsRound, hc]
        simp [asObject]
      rw [hr]
      rcases hfold : foldRound obj (gen, out) with ⟨gen1, out1⟩
      simp only
      by_cases hstall : gen1 = gen
      · rw [if_pos hstall]
        exact ⟨out1, gen1, true, rfl⟩
      · rw [if_neg hstall]
        have hge : gen ≤ gen1 := by
          have := foldRound_count_ge obj (gen, out)
          rw [hfold] at this
          exact this
        exact ih gen1 out1 s1 rng1 (by omega)
    · rw [if_neg hlt]
      exact ⟨out, gen, false, rfl⟩

theorem nsLoop_names {completeFn : S → Rng → Value × S × Rng} {target : Nat}
    {names : List String}
    (hobj : ∀ (s : S) (rng : Rng), ∃ obj, (completeFn s rng).1 = .object obj ∧
      ∀ n ∈ names, n ∈ obj.map Prod.fst) :
    ∀ {fuel gen out s rng out' gen' w}, gen < target →
    nsSampleLoop completeFn target fuel gen out s rng = .ok (out', gen', w) →
    ∀ n ∈ names, n ∈ out'.map Prod.fst := by
  intro fuel
  cases fuel with
  | zero => intro gen out s rng out' gen' w _ h; simp [nsSampleLoop] at h
  | succ n =>
    intro gen out s rng out' gen' w hlt h
    rw [nsSampleLoop, if_pos hlt] at h
    cases hr : nsRound completeFn gen out s rng with
    | error e => rw [hr] at h; simp at h
    | ok res =>
      rcases res with ⟨⟨gen1, out1⟩, s1, rng1⟩
      rw [hr] at h
      simp only at h
      have hmem : ∀ nm ∈ names, nm ∈ out1.map Prod.fst := nsRound_keys_names hr (hobj s rng)
      by_cases hstall : gen1 = gen
      · rw [if_pos hstall] at h
        simp only [Except.ok.injEq, Prod.mk.injEq] at h
        intro nm hnm
        rw [← h.1]
        exact hmem nm hnm
      · rw [if_neg hstall] at h
        intro nm hnm
        exact nsLoop_keys h nm (hmem nm hnm)

/-! ### Round and loop lemmas, collection mode -/

theorem collRoundUpdate_count_ge (cv : Value) (gen : Nat) (out : Value) :
    gen ≤ (collRoundUpdate cv gen out).1 := by
  cases cv <;> simp [collRoundUpdate]

theorem collRound_ok {completeFn : S → Rng → Value × S × Rng}
    {name gen out s rng gen' out' s' rng'}
    (h : collRound completeFn name gen out s rng = .ok ((gen', out'), s', rng')) :
    ∃ obj cv, (completeFn s rng).1 = .object obj ∧ (mapRemoveEntry name obj).1 = some cv ∧
      collRoundUpdate cv gen out = (gen', out') := by
  rw [collRound] at h
  rcases hc : completeFn s rng with ⟨next, s1, rng1⟩
  rw [hc] at h
  simp only at h
  cases next <;> simp [asObject] at h
  case object obj =>
    cases hcv : (mapRemoveEntry name obj).1 with
    | none => rw [hcv] at h; simp at h
    | some cv =>
      rw [hcv] at h
      have h' : (Except.ok (collRoundUpdate cv gen out, s1, rng1) :
          Except SampleError ((Nat × Value) × S × Rng)) = .ok ((gen', out'), s', rng') := h
      simp only [Except.ok.injEq, Prod.mk.injEq] at h'
      exact ⟨obj, cv, rfl, hcv, h'.1⟩

theorem collRound_error {completeFn : S → Rng → Value × S × Rng}
    {name gen out s rng e}
    (h : collRound completeFn name gen out s rng = .error e) :
    e = SampleError.notObject ∨ e = SampleError.missingCollection name := by
  rw [collRound] at h
  rcases hc : completeFn s rng with ⟨next, s1, rng1⟩
  rw [hc] at h
  simp only at h
  cases next <;> simp [asObject] at h
  case object obj =>
    cases hcv : (mapRemoveEntry name obj).1 with
    | none =>
      rw [hcv] at h
      simp only [Except.error.injEq] at h
      exact Or.inr h.symm
    | some cv => rw [hcv] at h; simp at h
  all_goals exact Or.inl h.symm

theorem collRound_count_ge {completeFn : S → Rng → Value × S × Rng}
    {name gen out s rng gen' out' s' rng'}
    (h : collRound completeFn name gen out s rng = .ok ((gen', out'), s', rng')) :
    gen ≤ gen' := by
  rcases collRound_ok h with ⟨obj, cv, _, _, hup⟩
  have := collRoundUpdate_count_ge cv gen out
  rw [hup] at this
  exact this

theorem collLoop_no_outOfFuel {completeFn : S → Rng → Value × S × Rng}
    {name : String} {target : Nat} :
    ∀ {fuel gen out s rng}, target - gen < fuel →
    collSampleLoop completeFn name target fuel gen out s rng ≠ .error .outOfFuel := by
  intro fuel
  induction fuel with
  | zero => intro gen out s rng h; omega
  | succ n ih =>
    intro gen out s rng h
    rw [collSampleLoop]
    by_cases hlt : gen < target
    · rw [if_pos hlt]
      cases hr : collRound completeFn name gen out s rng with
      | error e =>
        rcases collRound_error hr with h2 | h2 <;> simp [h2]
      | ok res =>
        rcases res with ⟨⟨gen', out'⟩, s', rng'⟩
        simp only
        by_cases hstall : gen' = gen
        · rw [if_pos hstall]; simp
        · rw [if_neg hstall]
          have hge : gen ≤ gen' := collRound_count_ge hr
          exact ih (by omega)
    · rw [if_neg hlt]; simp

theorem collLoop_ok_false {completeFn : S → Rng → Value × S × Rng}
    {name : String} {target : Nat} :
    ∀ {fuel gen out s rng out' gen'},
    collSampleLoop completeFn name target fuel gen out s rng = .ok (out', gen', false) →
    target ≤ gen' := by
  intro fuel
  induction fuel with
  | zero => intro gen out s rng out' gen' h; simp [collSampleLoop] at h
  | succ n ih =>
    intro gen out s rng out' gen' h
    rw [collSampleLoop] at h
    by_cases hlt : gen < target
    · rw [if_pos hlt] at h
      cases hr : collRound completeFn name gen out s rng with
      | error e => rw [hr] at h; simp at h
      | ok res =>
        rcases res with ⟨⟨gen1, out1⟩, s1, rng1⟩
        rw [hr] at h
        simp only at h
        by_cases hstall : gen1 = gen
        · rw [if_pos hstall] at h; simp at h
        · rw [if_neg hstall] at h
          exact ih h
    · rw [if_neg hlt] at h
      simp only [Except.ok.injEq, Prod.mk.injEq] at h
      omega

theorem collLoop_ok_true {completeFn : S → Rng → Value × S × Rng}
    {name : String} {target : Nat} :
    ∀ {fuel gen out s rng out' gen'},
    collSampleLoop completeFn name target fuel gen out s rng = .ok (out', gen', true) →
    gen' < target ∧ ∃ out0 s0 rng0 s1 rng1,
      collRound completeFn name gen' out0 s0 rng0 = .ok ((gen', out'), s1, rng1) := by
  intro fuel
  induction fuel with
  | zero => intro gen out s rng out' gen' h; simp [collSampleLoop] at h
  | succ n ih =>
    intro gen out s rng out' gen' h
    rw [collSampleLoop] at h
    by_cases hlt : gen < target
    · rw [if_pos hlt] at h
      cases hr : collRound completeFn name gen out s rng with
      | error e => rw [hr] at h; simp at h
      | ok res =>
        rcases res with ⟨⟨gen1, out1⟩, s1, rng1⟩
        rw [hr] at h
        simp only at h
        by_cases hstall : gen1 = gen
        · rw [if_pos hstall] at h
          simp only [Except.ok.injEq, Prod.mk.injEq] at h
          obtain ⟨hout, hgen, -⟩ := h
          refine ⟨by omega, out, s, rng, s1, rng1, ?_⟩
          rw [← hgen, ← hout, hstall]
          rw [hstall] at hr
          exact hr
        · rw [if_neg hstall] at h
          exact ih h
    · rw [if_neg hlt] at h
      simp at h

theorem collRound_congr {completeFn1 completeFn2 : S → Rng → Value × S × Rng}
    {name : String} {s : S} {rng : Rng}
    (hstate : (completeFn1 s rng).2 = (completeFn2 s rng).2)
    (hentry : (asObject (completeFn1 s rng).1).map (fun obj => (mapRemoveEntry name obj).1)
      = (asObject (completeFn2 s rng).1).map (fun obj => (mapRemoveEntry name obj).1)) :
    ∀ gen out, collRound completeFn1 name gen out s rng = collRound completeFn2 name gen out s rng := by
  intro gen out
  rcases hc1 : completeFn1 s rng with ⟨v1, s1, rng1⟩
  rcases hc2 : completeFn2 s rng with ⟨v2, s2, rng2⟩
  rw [hc1, hc2] at hstate hentry
  simp only at hstate hentry
  have hs12 : s1 = s2 := congrArg Prod.fst hstate
  have hr12 : rng1 = rng2 := congrArg Prod.snd hstate
  subst hs12
  subst hr12
  rw [collRound, collRound, hc1, hc2]
  simp only
  cases ho1 : asObject v1 with
  | none =>
    rw [ho1] at hentry
    cases ho2 : asObject v2 with
    | none => simp
    | some o2 => rw [ho2] at hentry; simp at hentry
  | some o1 =>
    rw [ho1] at hentry
    cases ho2 : asObject v2 with
    | none => rw [ho2] at hentry; simp at hentry
    | some o2 =>
      rw [ho2] at hentry
      simp only [Option.map_some', Option.some.injEq] at hentry
      simp only []
      rw [hentry]

theorem collLoop_congr {completeFn1 completeFn2 : S → Rng → Value × S × Rng}
    {name : String} {target : Nat}
    (hagree : ∀ (s : S) (rng : Rng), (completeFn1 s rng).2 = (completeFn2 s rng).2 ∧
      (asObject (completeFn1 s rng).1).map (fun obj => (mapRemoveEntry name obj).1)
        = (asObject (completeFn2 s rng).1).map (fun obj => (mapRemoveEntry name obj).1)) :
    ∀ fuel gen out s rng,
    collSampleLoop completeFn1 name target fuel gen out s rng
      = collSampleLoop completeFn2 name target fuel gen out s rng := by
  intro fuel
  induction fuel with
  | zero => intro gen out s rng; rfl
  | succ n ih =>
    intro gen out s rng
    rw [collSampleLoop, collSampleLoop]
    by_cases hlt : gen < target
    · rw [if_pos hlt, if_pos hlt]
      rw [collRound_congr (hagree s rng).1 (hagree s rng).2 gen out]
      cases collRound completeFn2 name gen out s rng with
      | error e => rfl
      | ok res =>
        rcases res with ⟨⟨gen1, out1⟩, s1, rng1⟩
        simp only
        by_cases hstall : gen1 = gen
        · rw [if_pos hstall, if_pos hstall]
        · rw [if_neg hstall, if_neg hstall]
          exact ih gen1 out1 s1 rng1
    · rw [if_neg hlt, if_neg hlt]

theorem collRound_ok_of_present {completeFn : S → Rng → Value × S × Rng}
    {name : String} {s : S} {rng : Rng}
    (hpresent : ∃ obj, (completeFn s rng).1 = .object obj ∧
      ∃ cv, (mapRemoveEntry name obj).1 = some cv) :
    ∀ gen out, ∃ upd s' rng',
      collRound completeFn name gen out s rng = .ok (upd, s', rng') := by
  intro gen out
  rcases hpresent with ⟨obj, hv, cv, hcv⟩
  rcases hc : completeFn s rng with ⟨next, s1, rng1⟩
  rw [hc] at hv
  have hv' : next = Value.object obj := hv
  subst hv'
  refine ⟨collRoundUpdate cv gen out, s1, rng1, ?_⟩
  rw [collRound, hc]
  simp [asObject, hcv]

theorem collLoop_no_missing {completeFn : S → Rng → Value × S × Rng}
    {name : String} {target : Nat}
    (hpresent : ∀ (s : S) (rng : Rng), ∃ obj, (completeFn s rng).1 = .object obj ∧
      ∃ cv, (mapRemoveEntry name obj).1 = some cv) :
    ∀ {fuel gen out s rng nm},
    collSampleLoop completeFn name target fuel gen out s rng
      ≠ .error (.missingCollection nm) := by
  intro fuel
  induction fuel with
  | zero => intro gen out s rng nm; simp [collSampleLoop]
  | succ n ih =>
    intro gen out s rng nm
    rw [collSampleLoop]
    by_cases hlt : gen < target
    · rw [if_pos hlt]
      rcases collRound_ok_of_present (hpresent s rng) gen out with ⟨⟨gen1, out1⟩, s1, rng1, hr⟩
      rw [hr]
      simp only
      by_cases hstall : gen1 = gen
      · rw [if_pos hstall]; simp
      · rw [if_neg hstall]
        exact ih
    · rw [if_neg hlt]; simp

theorem collLoop_first_missing {completeFn : S → Rng → Value × S × Rng}
    {name : String} {target : Nat} {fuel gen out s rng obj}
    (hlt : gen < target)
    (hv : (completeFn s rng).1 = .object obj)
    (hcv : (mapRemoveEntry name obj).1 = none) :
    collSampleLoop completeFn name target (fuel + 1) gen out s rng
      = .error (.missingCollection name) := by
  rcases hc : completeFn s rng with ⟨next, s1, rng1⟩
  rw [hc] at hv
  have hv' : next = Value.object obj := hv
  subst hv'
  have hr : collRound completeFn name gen out s rng = .error (.missingCollection name) := by
    rw [collRound, hc]
    simp [asObject, hcv]
  rw [collSampleLoop, if_pos hlt, hr]

/-! ### The reordering pass -/

theorem reorder_some {names : List String} :
    names.Nodup → ∀ {out} (acc : List (String × Value)),
    (∀ n ∈ names, n ∈ out.map Prod.fst) →
    ∃ acc' out', reorderLoop out acc names = some (acc', out') := by
  induction names with
  | nil => intro _ out acc _; exact ⟨acc, out, rfl⟩
  | cons name rest ih =>
    intro hnodup out acc hmem
    rcases mapRemoveEntry_found (hmem name (by simp)) with ⟨v, hv⟩
    rw [reorderLoop]
    rcases hre : mapRemoveEntry name out with ⟨found, out1⟩
    rw [hre] at hv
    simp only at hv
    subst hv
    simp only
    apply ih (List.Nodup.of_cons hnodup)
    intro n hn
    have hne : n ≠ name := by
      intro he
      subst he
      exact (List.nodup_cons.mp hnodup).1 hn
    have := mem_keys_mapRemoveEntry_of hne (hmem n (by simp [hn]))
    rw [hre] at this
    exact this

theorem reorder_fst : ∀ {names : List String} {out acc acc' out'},
    reorderLoop out acc names = some (acc', out') →
    acc'.map Prod.fst = acc.map Prod.fst ++ names := by
  intro names
  induction names with
  | nil =>
    intro out acc acc' out' h
    simp only [reorderLoop, Option.some.injEq, Prod.mk.injEq] at h
    simp [← h.1]
  | cons name rest ih =>
    intro out acc acc' out' h
    rw [reorderLoop] at h
    rcases hre : mapRemoveEntry name out with ⟨found, out1⟩
    rw [hre] at h
    cases found with
    | none => simp at h
    | some v =>
      simp only at h
      have := ih h
      simpa using this

theorem reorder_keys_sub {k0 : String} : ∀ {names : List String} {out acc acc' out'},
    reorderLoop out acc names = some (acc', out') →
    k0 ∈ out'.map Prod.fst → k0 ∈ out.map Prod.fst := by
  intro names
  induction names with
  | nil =>
    intro out acc acc' out' h hk
    simp only [reorderLoop, Option.some.injEq, Prod.mk.injEq] at h
    rw [← h.2] at hk
    exact hk
  | cons name rest ih =>
    intro out acc acc' out' h hk
    rw [reorderLoop] at h
    rcases hre : mapRemoveEntry name out with ⟨found, out1⟩
    rw [hre] at h
    cases found with
    | none => simp at h
    | some v =>
      simp only at h
      have := ih h hk
      have h2 := mapRemoveEntry_keys_sub name k0 out
      rw [hre] at h2
      exact h2 this

theorem reorder_sorted : ∀ {names : List String} {out acc acc' out'},
    MapSorted out → reorderLoop out acc names = some (acc', out') → MapSorted out' := by
  intro names
  induction names with
  | nil =>
    intro out acc acc' out' hs h
    simp only [reorderLoop, Option.some.injEq, Prod.mk.injEq] at h
    rw [← h.2]
    exact hs
  | cons name rest ih =>
    intro out acc acc' out' hs h
    rw [reorderLoop] at h
    rcases hre : mapRemoveEntry name out with ⟨found, out1⟩
    rw [hre] at h
    cases found with
    | none => simp at h
    | some v =>
      simp only at h
      have hs1 : MapSorted out1 := by
        have := mapRemoveEntry_sorted (k := name) hs
        rw [hre] at this
        exact this
      exact ih hs1 h

theorem reorder_disjoint : ∀ {names : List String} {out acc acc' out'},
    MapSorted out → reorderLoop out acc names = some (acc', out') →
    ∀ n ∈ names, n ∉ out'.map Prod.fst := by
  intro names
  induction names with
  | nil => intro out acc acc' out' _ _ n hn; simp at hn
  | cons name rest ih =>
    intro out acc acc' out' hs h n hn
    rw [reorderLoop] at h
    rcases hre : mapRemoveEntry name out with ⟨found, out1⟩
    rw [hre] at h
    cases found with
    | none => simp at h
    | some v =>
      simp only at h
      have hs1 : MapSorted out1 := by
        have := mapRemoveEntry_sorted (k := name) hs
        rw [hre] at this
        exact this
      rcases (by simpa using hn : n = name ∨ n ∈ rest) with h1 | h1
      · subst h1
        intro hmem
        have h2 := reorder_keys_sub h hmem
        have h3 := not_mem_keys_mapRemoveEntry (k := n) (m := out) hs
        rw [hre] at h3
        exact h3 h2
      · exact ih hs1 h n h1

/-! ## Claims about the sampling driver -/

/-- C1: determinism of `Sampler::sample_seeded`.  The sample is a pure
function of (schema graph, collection selector, target, seed): two runs
with equal inputs produce identical output, and because the RNG is built
by `StdRng::seed_from_u64`, seeds congruent modulo 2^64 (the `u64` seed
domain) already produce identical output. -/
theorem sample_seeded_deterministic {S : Type} (g : Graph S)
    (collection_name : Option String) (target : Nat) (seed1 seed2 : Nat)
    (hseed : seed1 % 18446744073709551616 = seed2 % 18446744073709551616) :
    sample_seeded g collection_name target seed1
      = sample_seeded g collection_name target seed2 := by
  have he : seedFromU64 seed1 = seedFromU64 seed2 := by
    simp only [seedFromU64, hseed]
  rw [sample_seeded.eq_def, sample_seeded.eq_def, he]

theorem sample_seeded_deterministic_witness :
    (1 : Nat) % 18446744073709551616 = (18446744073709551617 : Nat) % 18446744073709551616
    ∧ sample_seeded
        (⟨fun (i : Nat) rng => (Value.object [("x", Value.array [Value.bool true])], i + 1, rng),
          0, none⟩ : Graph Nat) none 1 1
      = sample_seeded
        (⟨fun (i : Nat) rng => (Value.object [("x", Value.array [Value.bool true])], i + 1, rng),
          0, none⟩ : Graph Nat) none 1 18446744073709551617 :=
  ⟨by decide,
   sample_seeded_deterministic _ none 1 1 18446744073709551617 (by decide)⟩

/-- C5: the driver loops (both namespace and collection mode) terminate
exactly when the cumulative count reaches or exceeds the target, or when a
full round adds zero new elements.  Part one of each triple: the loop
never exhausts the modelled fuel bound when given the entry point's fuel
budget (the source loop terminates).  Part two: a result without the
stall warning means the target was reached.  Part three: a result with
the stall warning (the emitted warning) means the count is below target,
and the returned accumulator is exactly the state after a final round
that added zero elements (nothing further is inserted). -/
theorem sampler_termination_stall :
    (∀ (S : Type) (completeFn : S → Rng → Value × S × Rng) (target fuel gen : Nat)
      (out : List (String × Value)) (s : S) (rng : Rng), target - gen < fuel →
      nsSampleLoop completeFn target fuel gen out s rng ≠ .error .outOfFuel)
    ∧ (∀ (S : Type) (completeFn : S → Rng → Value × S × Rng) (target fuel gen : Nat)
      (out : List (String × Value)) (s : S) (rng : Rng) (out' : List (String × Value))
      (gen' : Nat),
      nsSampleLoop completeFn target fuel gen out s rng = .ok (out', gen', false) →
      target ≤ gen')
    ∧ (∀ (S : Type) (completeFn : S → Rng → Value × S × Rng) (target fuel gen : Nat)
      (out : List (String × Value)) (s : S) (rng : Rng) (out' : List (String × Value))
      (gen' : Nat),
      nsSampleLoop completeFn target fuel gen out s rng = .ok (out', gen', true) →
      gen' < target ∧ ∃ out0 s0 rng0 s1 rng1,
        nsRound completeFn gen' out0 s0 rng0 = .ok ((gen', out'), s1, rng1))
    ∧ (∀ (S : Type) (completeFn : S → Rng → Value × S × Rng) (name : String)
      (target fuel gen : Nat) (out : Value) (s : S) (rng : Rng), target - gen < fuel →
      collSampleLoop completeFn name target fuel gen out s rng ≠ .error .outOfFuel)
    ∧ (∀ (S : Type) (completeFn : S → Rng → Value × S × Rng) (name : String)
      (target fuel gen : Nat) (out : Value) (s : S) (rng : Rng) (out' : Value) (gen' : Nat),
      collSampleLoop completeFn name target fuel gen out s rng = .ok (out', gen', false) →
      target ≤ gen')
    ∧ (∀ (S : Type) (completeFn : S → Rng → Value × S × Rng) (name : String)
      (target fuel gen : Nat) (out : Value) (s : S) (rng : Rng) (out' : Value) (gen' : Nat),
      collSampleLoop completeFn name target fuel gen out s rng = .ok (out', gen', true) →
      gen' < target ∧ ∃ out0 s0 rng0 s1 rng1,
        collRound completeFn name gen' out0 s0 rng0 = .ok ((gen', out'), s1, rng1)) := by
  refine ⟨?_, ?_, ?_, ?_, ?_, ?_⟩
  · intro S completeFn target fuel gen out s rng h
    exact nsLoop_no_outOfFuel h
  · intro S completeFn target fuel gen out s rng out' gen' h
    exact nsLoop_ok_false h
  · intro S completeFn target fuel gen out s rng out' gen' h
    exact nsLoop_ok_true h
  · intro S completeFn name target fuel gen out s rng h
    exact collLoop_no_outOfFuel h
  · intro S completeFn name target fuel gen out s rng out' gen' h
    exact collLoop_ok_false h
  · intro S completeFn name target fuel gen out s rng out' gen' h
    exact collLoop_ok_true h

theorem sampler_termination_stall_witness :
    (nsSampleLoop (fun (i : Nat) rng => (Value.object [("x", Value.array [Value.u64 0])], i + 1, rng))
        1 2 0 [] 0 ⟨0, 0⟩ ≠ .error .outOfFuel)
    ∧ (1 : Nat) ≤ 1
    ∧ ((0 : Nat) < 1 ∧ ∃ out0 s0 rng0 s1 rng1,
        nsRound (fun (i : Nat) rng => (Value.object [("x", Value.array [])], i + 1, rng))
          0 out0 s0 rng0 = .ok ((0, [("x", Value.array [])]), s1, rng1))
    ∧ (collSampleLoop (fun (i : Nat) rng => (Value.object [("x", Value.array [Value.u64 0])], i + 1, rng))
        "x" 1 2 0 (.array []) 0 ⟨0, 0⟩ ≠ .error .outOfFuel)
    ∧ (1 : Nat) ≤ 1
    ∧ ((0 : Nat) < 1 ∧ ∃ out0 s0 rng0 s1 rng1,
        collRound (fun (i : Nat) rng => (Value.object [("x", Value.array [])], i + 1, rng))
          "x" 0 out0 s0 rng0 = .ok ((0, Value.array []), s1, rng1)) := by
  refine ⟨?_, ?_, ?_, ?_, ?_, ?_⟩
  · exact sampler_termination_stall.1 Nat _ 1 2 0 [] 0 ⟨0, 0⟩ (by decide)
  · exact sampler_termination_stall.2.1 Nat
      (fun (i : Nat) rng => (Value.object [("x", Value.array [Value.u64 0])], i + 1, rng))
      1 2 0 [] 0 ⟨0, 0⟩ [("x", Value.array [Value.u64 0])] 1 rfl
  · exact sampler_termination_stall.2.2.1 Nat
      (fun (i : Nat) rng => (Value.object [("x", Value.array [])], i + 1, rng))
      1 2 0 [] 0 ⟨0, 0⟩ [("x", Value.array [])] 0 rfl
  · exact sampler_termination_stall.2.2.2.1 Nat _ "x" 1 2 0 (.array []) 0 ⟨0, 0⟩ (by decide)
  · exact sampler_termination_stall.2.2.2.2.1 Nat
      (fun (i : Nat) rng => (Value.object [("x", Value.array [Value.u64 0])], i + 1, rng))
      "x" 1 2 0 (.array []) 0 ⟨0, 0⟩ (Value.array [Value.u64 0]) 1 rfl
  · exact sampler_termination_stall.2.2.2.2.2 Nat
      (fun (i : Nat) rng => (Value.object [("x", Value.array [])], i + 1, rng))
      "x" 1 2 0 (.array []) 0 ⟨0, 0⟩ (Value.array []) 0 rfl

/-- C6 counterexample: the claim says collections not in the topological
order are appended "in insertion order".  The accumulator is a
`BTreeMap`, which iterates in ascending key order and does not record
insertion order.  With no topological order, a first round producing only
collection "b" and a second producing only "a", the driver emits
`[a, b]` although the insertion order was `[b, a]`. -/
theorem ns_insertion_order_counterexample :
    NamespaceSampleStrategy.sample
        (⟨fun (i : Nat) rng =>
            (if i = 0 then Value.object [("b", Value.array [Value.u64 1])]
             else Value.object [("a", Value.array [Value.u64 2])], i + 1, rng),
          0, none⟩ : Graph Nat) 2 ⟨0, 0⟩
      = .ok ([("a", Value.array [Value.u64 2]), ("b", Value.array [Value.u64 1])], false)
    ∧ ([("a", Value.array [Value.u64 2]), ("b", Value.array [Value.u64 1])]
        : List (String × Value))
      ≠ [("b", Value.array [Value.u64 1]), ("a", Value.array [Value.u64 2])] := by
  constructor
  · rfl
  · intro hEq
    have h2 := congrArg (fun l => l.map Prod.fst) hEq
    simp at h2

/-- C6 (amended): in namespace mode, the driver's output lists the
collections of the topological order computed during compilation
(`iter_ordered`) first, in that order; every collection not appearing in
that order is appended afterwards in ascending lexicographic order of
collection name (the accumulator `BTreeMap`'s iteration order — insertion
order is not recorded). -/
theorem ns_output_order {S : Type} {g : Graph S} {target : Nat} {rng : Rng}
    {res : List (String × Value)} {warned : Bool}
    (h : NamespaceSampleStrategy.sample g target rng = .ok (res, warned)) :
    ∃ A B, res = A ++ B ∧ A.map Prod.fst = g.ordered.getD []
      ∧ MapSorted B
      ∧ ∀ p ∈ B, p.1 ∉ g.ordered.getD [] := by
  rw [NamespaceSampleStrategy.sample] at h
  cases hloop : nsSampleLoop g.complete target (target + 1) 0 [] g.state rng with
  | error e => rw [hloop] at h; simp at h
  | ok res0 =>
    rcases res0 with ⟨out, gen, w⟩
    rw [hloop] at h
    simp only at h
    cases hre : reorderLoop out [] (g.ordered.getD []) with
    | none => rw [hre] at h; simp at h
    | some pr =>
      rcases pr with ⟨A, B⟩
      rw [hre] at h
      simp only [Except.ok.injEq, Prod.mk.injEq] at h
      have hsorted : MapSorted out := nsLoop_sorted hloop (by simp [MapSorted])
      refine ⟨A, B, by rw [← h.1], ?_, ?_, ?_⟩
      · simpa using reorder_fst hre
      · exact reorder_sorted hsorted hre
      · intro p hp hmem
        exact reorder_disjoint hsorted hre p.1 hmem (List.mem_map_of_mem Prod.fst hp)

theorem ns_output_order_witness :
    NamespaceSampleStrategy.sample
        (⟨fun (i : Nat) rng =>
            (Value.object [("a", Value.array [Value.u64 1]), ("b", Value.array [Value.u64 2])],
              i + 1, rng),
          0, some ["b"]⟩ : Graph Nat) 1 ⟨0, 0⟩
      = .ok ([("b", Value.array [Value.u64 2]), ("a", Value.array [Value.u64 1])], false)
    ∧ ∃ A B,
      ([("b", Value.array [Value.u64 2]), ("a", Value.array [Value.u64 1])]
        : List (String × Value)) = A ++ B
      ∧ A.map Prod.fst = (some ["b"] : Option (List String)).getD []
      ∧ MapSorted B
      ∧ ∀ p ∈ B, p.1 ∉ (some ["b"] : Option (List String)).getD [] :=
  ⟨rfl,
   ns_output_order
     (show NamespaceSampleStrategy.sample
         (⟨fun (i : Nat) rng =>
             (Value.object [("a", Value.array [Value.u64 1]), ("b", Value.array [Value.u64 2])],
               i + 1, rng),
           0, some ["b"]⟩ : Graph Nat) 1 ⟨0, 0⟩
       = .ok ([("b", Value.array [Value.u64 2]), ("a", Value.array [Value.u64 1])], false)
      from rfl)⟩

/-- C7 counterexample: the claim says the driver errors exactly when *no*
round produces the selected collection, and that if some round produces
it no missing-collection error is returned.  The code errors on the
*first* completed round whose snapshot lacks the collection: with a first
round producing one element of "orders" and a second round lacking it
(target 2), the first round did produce the collection and the driver
still returns the missing-collection error. -/
theorem collection_error_counterexample :
    CollectionSampleStrategy.sample
        (⟨fun (i : Nat) rng =>
            (if i = 0 then Value.object [("orders", Value.array [Value.u64 1])]
             else Value.object [("other", Value.u64 0)], i + 1, rng),
          0, none⟩ : Graph Nat) "orders" 2 ⟨0, 0⟩
      = .error (.missingCollection "orders")
    ∧ (mapRemoveEntry "orders" [("orders", Value.array [Value.u64 1])]).1
      = some (Value.array [Value.u64 1]) :=
  ⟨rfl, rfl⟩

/-- C7 (amended): in collection-only mode the driver keeps only the
selected collection per round — its behaviour depends on each round's
snapshot only through being an object and through that collection's entry
(all other collections are discarded) — and it returns the
missing-collection error exactly when some *completed* round's snapshot
lacks the selected collection: if every round's snapshot is an object
containing it, no missing-collection error is ever returned, and if a
round reached while the count is below target lacks it (in particular the
first round, hence whenever no round produces it), the driver errors. -/
theorem collection_mode_selective :
    (∀ (S : Type) (completeFn1 completeFn2 : S → Rng → Value × S × Rng) (name : String)
      (target : Nat),
      (∀ (s : S) (rng : Rng), (completeFn1 s rng).2 = (completeFn2 s rng).2 ∧
        (asObject (completeFn1 s rng).1).map (fun obj => (mapRemoveEntry name obj).1)
          = (asObject (completeFn2 s rng).1).map (fun obj => (mapRemoveEntry name obj).1)) →
      ∀ fuel gen out s rng,
        collSampleLoop completeFn1 name target fuel gen out s rng
          = collSampleLoop completeFn2 name target fuel gen out s rng)
    ∧ (∀ (S : Type) (completeFn : S → Rng → Value × S × Rng) (name : String) (target : Nat),
      (∀ (s : S) (rng : Rng), ∃ obj, (completeFn s rng).1 = .object obj ∧
        ∃ cv, (mapRemoveEntry name obj).1 = some cv) →
      ∀ fuel gen out s rng nm,
        collSampleLoop completeFn name target fuel gen out s rng
          ≠ .error (.missingCollection nm))
    ∧ (∀ (S : Type) (completeFn : S → Rng → Value × S × Rng) (name : String)
      (target fuel gen : Nat) (out : Value) (s : S) (rng : Rng)
      (obj : List (String × Value)), gen < target →
      (completeFn s rng).1 = .object obj → (mapRemoveEntry name obj).1 = none →
      collSampleLoop completeFn name target (fuel + 1) gen out s rng
        = .error (.missingCollection name)) := by
  refine ⟨?_, ?_, ?_⟩
  · intro S completeFn1 completeFn2 name target hagree fuel gen out s rng
    exact collLoop_congr hagree fuel gen out s rng
  · intro S completeFn name target hpresent fuel gen out s rng nm
    exact collLoop_no_missing hpresent
  · intro S completeFn name target fuel gen out s rng obj hlt hv hcv
    exact collLoop_first_missing hlt hv hcv

theorem collection_mode_selective_witness :
    (collSampleLoop
        (fun (i : Nat) rng =>
          (Value.object [("orders", Value.array [Value.u64 1]), ("z", Value.u64 5)], i + 1, rng))
        "orders" 1 2 0 (.array []) 0 ⟨0, 0⟩
      = collSampleLoop
        (fun (i : Nat) rng => (Value.object [("orders", Value.array [Value.u64 1])], i + 1, rng))
        "orders" 1 2 0 (.array []) 0 ⟨0, 0⟩)
    ∧ (collSampleLoop
        (fun (i : Nat) rng => (Value.object [("orders", Value.array [Value.u64 1])], i + 1, rng))
        "orders" 1 2 0 (.array []) 0 ⟨0, 0⟩ ≠ .error (.missingCollection "orders"))
    ∧ (collSampleLoop
        (fun (i : Nat) rng => (Value.object [("other", Value.u64 0)], i + 1, rng))
        "orders" 1 2 0 (.array []) 0 ⟨0, 0⟩ = .error (.missingCollection "orders")) := by
  refine ⟨?_, ?_, ?_⟩
  · exact collection_mode_selective.1 Nat _ _ "orders" 1
      (fun s rng => ⟨rfl, rfl⟩) 2 0 (.array []) 0 ⟨0, 0⟩
  · exact collection_mode_selective.2.1 Nat _ "orders" 1
      (fun s rng => ⟨[("orders", Value.array [Value.u64 1])], rfl,
        Value.array [Value.u64 1], rfl⟩) 2 0 (.array []) 0 ⟨0, 0⟩ "orders"
  · exact collection_mode_selective.2.2 Nat _ "orders" 1 1 0 (.array []) 0 ⟨0, 0⟩
      [("other", Value.u64 0)] (by decide) rfl rfl

/-- C10: for every target at least 1, if every round's namespace snapshot
is an object containing a key for every name of the graph's topological
order (which, being a topological order, lists each collection once), the
namespace sampler never hits the `out.remove(&name).unwrap()` panic of
its reordering pass: the loop body runs at least once before the
reordering pass, so every ordered name is a key of the accumulator, and
the driver returns a normal result. -/
theorem sampler_no_panic {S : Type} (g : Graph S) (target : Nat) (rng : Rng)
    (htarget : 1 ≤ target)
    (hnodup : (g.ordered.getD []).Nodup)
    (hobj : ∀ (s : S) (rng0 : Rng), ∃ obj, (g.complete s rng0).1 = .object obj ∧
      ∀ n ∈ g.ordered.getD [], n ∈ obj.map Prod.fst) :
    ∃ res warned, NamespaceSampleStrategy.sample g target rng = .ok (res, warned) := by
  have hobj' : ∀ (s : S) (rng0 : Rng), ∃ obj, (g.complete s rng0).1 = .object obj := by
    intro s rng0
    rcases hobj s rng0 with ⟨obj, h1, _⟩
    exact ⟨obj, h1⟩
  rcases nsLoop_ok_of_obj target hobj' (target + 1) 0 [] g.state rng (by omega)
    with ⟨out, gen, w, hloop⟩
  have hnames : ∀ n ∈ g.ordered.getD [], n ∈ out.map Prod.fst :=
    nsLoop_names hobj (by omega) hloop
  rcases reorder_some hnodup [] hnames with ⟨A, B, hre⟩
  refine ⟨A ++ B, w, ?_⟩
  simp [NamespaceSampleStrategy.sample, hloop, hre]

theorem sampler_no_panic_witness :
    (1 : Nat) ≤ 1
    ∧ (((some ["x"] : Option (List String)).getD []).Nodup)
    ∧ ∃ res warned,
      NamespaceSampleStrategy.sample
        (⟨fun (i : Nat) rng => (Value.object [("x", Value.array [Value.u64 1])], i + 1, rng),
          0, some ["x"]⟩ : Graph Nat) 1 ⟨0, 0⟩ = .ok (res, warned) :=
  ⟨by decide, by decide,
   sampler_no_panic _ 1 ⟨0, 0⟩ (by decide) (by decide)
     (fun s rng0 => ⟨[("x", Value.array [Value.u64 1])], rfl, by simp⟩)⟩

end Synth
